import Mathlib

/-!
Verification of the ingestion / normalization / pipeline-compiler engine of
the `3gpp_ana_sep` repository against its natural-language specification.

The engine lives in `src/std/table_sql.py`, `src/std/table_rule.py` and
`src/std/normalization.py` (an earlier, behaviourally identical copy of the
loader/compiler is `src/for_ana_r1_2/table_sql.py`).  Python strings are
embedded as `List Char`; Python string primitives are modelled as executable
functions on `List Char`; SQL row sets are embedded as Lean lists and the
compiled `WHERE` / window-function clauses as list filters.  Definitions
come first, then the lemmas and the claim theorems.
-/

/-- Python strings, embedded as lists of characters. -/
abbrev PyStr := List Char

/-- Characters removed from the ends of a string by Python `str.strip()`:
exactly the characters for which `str.isspace()` holds. -/
def pyWs (c : Char) : Bool :=
  c = ' ' || c = '\t' || c = '\n' || c = '\r' || c = '\x0b' || c = '\x0c' ||
  c = '\x1c' || c = '\x1d' || c = '\x1e' || c = '\x1f' || c = '\x85' || c = '\xa0' ||
  c = '\u1680' || ('\u2000' ≤ c && c ≤ '\u200a') || c = '\u2028' || c = '\u2029' ||
  c = '\u202f' || c = '\u205f' || c = '\u3000'

/-- Strip characters satisfying `p` from both ends of a list (the shape of
Python `str.strip()` and of SQLite `TRIM`). -/
def stripWith (p : Char → Bool) (s : PyStr) : PyStr :=
  ((s.dropWhile p).reverse.dropWhile p).reverse

/-- Python `str.strip()`. -/
def pyStrip (s : PyStr) : PyStr := stripWith pyWs s

/-- Python `str.lower()` (the values compared in the source are ASCII). -/
def pyLower (s : PyStr) : PyStr := s.map Char.toLower

/-- Python `s.replace(a, b)` for one-character `a`, `b`. -/
def replChar (a b : Char) (s : PyStr) : PyStr :=
  s.map (fun c => if c = a then b else c)

/-- Python `s.replace(a, "")` for a one-character `a`. -/
def dropChar (a : Char) (s : PyStr) : PyStr :=
  s.filter (fun c => !(c == a))

/-- Python `s.replace("\r\n", " ")`: each CRLF pair becomes one space. -/
def replCRLF : PyStr → PyStr
  | '\r' :: '\n' :: rest => ' ' :: replCRLF rest
  | c :: rest => c :: replCRLF rest
  | [] => []

/-- The newline cleanup of `Normalization.data_normalization_method`:
`s.replace("\r\n", " ").replace("\r", " ").replace("\n", " ")`. -/
def replNl (s : PyStr) : PyStr :=
  replChar '\n' ' ' (replChar '\r' ' ' (replCRLF s))

/-- Python `re.sub(r"[ ]{2,}", " ", s)`: collapse each run of two or more
spaces to a single space. -/
def squeezeSpaces : PyStr → PyStr
  | c :: d :: rest =>
      if c = ' ' && d = ' ' then squeezeSpaces (d :: rest)
      else c :: squeezeSpaces (d :: rest)
  | s => s

/-- `Normalization.data_normalization_method` applied to one value
(normalization.py lines 124-141): newlines to spaces, strip, tabs to
spaces, collapse interior space runs. -/
def dataNorm (s : PyStr) : PyStr :=
  squeezeSpaces (replChar '\t' ' ' (pyStrip (replNl s)))

/-- `_MISSING_TOKENS` of normalization.py (line 40). -/
def missingTokens : List PyStr :=
  [[], ['-','1'], ['e','r','r','o','r'], ['e','r','r'],
   ['u','n','k','n','o','w','n'], ['n','a'], ['n','/','a'], ['n','a','n'],
   ['n','u','l','l'], ['n','o','n','e'], ['?']]

/-- `_is_missing_text` of normalization.py: `s.strip().lower()` is a
missing token. -/
def isMissing (v : PyStr) : Bool :=
  decide (pyLower (pyStrip v) ∈ missingTokens)

/-- The `yes` token set of `Normalization.yn01e_to_int`. -/
def yesTokens : List PyStr :=
  [['1'], ['y','e','s'], ['y'], ['t','r','u','e'], ['t'], ['o','n']]

/-- The `no` token set of `Normalization.yn01e_to_int`. -/
def noTokens : List PyStr :=
  [['0'], ['n','o'], ['n'], ['f','a','l','s','e'], ['f'], ['o','f','f']]

/-- `Normalization.yn01e_to_int` (normalization.py lines 143-163): the
cleaned lowercased value is looked up in the yes/no/missing token sets;
everything not recognised is the sentinel -1. -/
def yn01e_to_int (v : PyStr) : Int :=
  let s := pyLower (pyStrip v)
  if s ∈ yesTokens then 1
  else if s ∈ noTokens then 0
  else if s ∈ missingTokens then -1
  else -1

/-- The first character, when there is one, is not Python whitespace. -/
def edgeHeadOk (s : PyStr) : Bool :=
  match s.head? with
  | some c => !(pyWs c)
  | none => true

/-- The last character, when there is one, is not Python whitespace. -/
def edgeLastOk (s : PyStr) : Bool :=
  match s.getLast? with
  | some c => !(pyWs c)
  | none => true

/-- Neither end of the string is Python whitespace (so `str.strip()` is a
no-op on it). -/
def edgesOk (s : PyStr) : Bool := edgeHeadOk s && edgeLastOk s

/-- No two adjacent spaces anywhere in the string (the post-condition of
the `re.sub(r"[ ]{2,}", " ", ·)` cleanup step). -/
def noDbl : PyStr → Bool
  | c :: d :: rest => !(c = ' ' && d = ' ') && noDbl (d :: rest)
  | _ => true

/-- The string contains none of the characters rewritten by the interior
cleanup (`\r`, `\n`, `\t`). -/
def noBadChar (s : PyStr) : Bool :=
  s.all (fun c => !(c == '\r') && !(c == '\n') && !(c == '\t'))

/-- The string is a fixed point of `data_normalization_method`: no
newline/tab characters, no double spaces, no whitespace at the ends. -/
def isCleanStr (s : PyStr) : Bool := noBadChar s && noDbl s && edgesOk s

-- ============================================================
-- _date_only, COMP_LEGAL_NAME cleanup, per-cell normalization
-- ============================================================

/-- ASCII decimal digits (what the `\d` patterns of `_date_only` match on
the ASCII data of these tables). -/
def isDig (c : Char) : Bool :=
  c == '0' || c == '1' || c == '2' || c == '3' || c == '4' ||
  c == '5' || c == '6' || c == '7' || c == '8' || c == '9'

/-- Every character of the string is a decimal digit. -/
def allDigits (s : PyStr) : Bool := s.all isDig

/-- Numeric value of a digit character. -/
def charVal (c : Char) : Nat := c.toNat - 48

/-- Value of a digit string (what Python `int(...)` computes on it). -/
def digitsToNat (s : PyStr) : Nat := s.foldl (fun n c => n * 10 + charVal c) 0

/-- Python `f"{n:02d}"` for `n < 100`. -/
def pad2 (n : Nat) : PyStr := [Nat.digitChar (n / 10), Nat.digitChar (n % 10)]

/-- `re.split(r"[ T]", s, 1)[0]`: the prefix before the first space or
`T` (normalization.py line 102). -/
def splitFirstST (s : PyStr) : PyStr :=
  s.takeWhile (fun c => !(c == ' ') && !(c == 'T'))

/-- Split a string on `-`: the shape analysis behind the regex
`(\d{4})-(\d{1,2})-(\d{1,2})` of `_date_only` (no group may contain a
dash, so a full match is exactly a three-way dash split with the length
and digit side conditions checked below). -/
def consHead (c : Char) : List PyStr → List PyStr
  | p :: ps => (c :: p) :: ps
  | [] => [[c]]

def splitDash : PyStr → List PyStr
  | [] => [[]]
  | c :: rest =>
      if c = '-' then [] :: splitDash rest
      else consHead c (splitDash rest)

/-- The character replacements of `_date_only` (normalization.py lines
104-106): year/month markers become `-`, the day marker is removed, `/`
and `.` become `-`. -/
def dateRepl (s : PyStr) : PyStr :=
  replChar '.' '-' (replChar '/' '-' (dropChar '日' (replChar '月' '-' (replChar '年' '-' s))))

/-- The date-shape analysis of `_date_only` (normalization.py lines
108-119): an 8-digit run becomes `YYYY-MM-DD`; a `\d{4}-\d{1,2}-\d{1,2}`
shape is zero-padded to `YYYY-MM-DD`; anything else is returned
unchanged for later inspection. -/
def dateCore (s3 : PyStr) : PyStr :=
  if allDigits s3 && (s3.length == 8) then
    s3.take 4 ++ '-' :: ((s3.drop 4).take 2 ++ '-' :: (s3.drop 6).take 2)
  else
    match splitDash s3 with
    | [y, mo, d] =>
        if (y.length == 4) && allDigits y &&
           (mo.length == 1 || mo.length == 2) && allDigits mo &&
           (d.length == 1 || d.length == 2) && allDigits d then
          y ++ '-' :: (pad2 (digitsToNat mo) ++ '-' :: pad2 (digitsToNat d))
        else s3
    | _ => s3

/-- `_date_only` of normalization.py (lines 88-119): strip, missing
values become empty, cut at the first space or `T`, normalize date
punctuation, then shape analysis. -/
def dateOnly (v : PyStr) : PyStr :=
  if isMissing (pyStrip v) then []
  else dateCore (dateRepl (pyStrip (splitFirstST (pyStrip v))))

/-- The `COMP_LEGAL_NAME` cleanup of `Normalizer.apply` (normalization.py
lines 279-285): remove commas and periods, strip, re-collapse interior
space runs. -/
def compFix (s : PyStr) : PyStr :=
  squeezeSpaces (pyStrip (dropChar '.' (dropChar ',' s)))

/-- A value stored in a SQLite cell of these tables. -/
inductive SVal where
  | null : SVal
  | int : Int → SVal
  | text : PyStr → SVal
deriving DecidableEq

/-- Python `"" if v is None else str(v)`: the string `Normalizer.apply`
builds from a cell read back from the store. -/
def svalStr : SVal → PyStr
  | SVal.null => []
  | SVal.int i => (toString i).toList
  | SVal.text s => s

/-- The text of a text cell (used to state conditions on stored text). -/
def svalText : SVal → PyStr
  | SVal.text s => s
  | _ => []

/-- How `Normalizer.apply` treats a column.  With the module's constant
sets, `INT_COLS_EXPLICIT` and `BOOL01_COLS_EXPLICIT` are the same set, so
every integer column (the set minus the forced-text date columns) is a
0/1-flag column normalized by `yn01e_to_int`; date columns and
`COMP_LEGAL_NAME` get their extra rewrite and then the text missing
rule; everything else is a plain text column. -/
inductive ColKind where
  | boolInt : ColKind
  | date : ColKind
  | comp : ColKind
  | text : ColKind
deriving DecidableEq

/-- `INT_COLS_EXPLICIT` of normalization.py (lines 46-58); identical to
`BOOL01_COLS_EXPLICIT` (lines 61-73). -/
def INT_COLS_EXPLICIT : List String :=
  ["Explicitely_Disclosed", "Normalized_Patent", "2G", "3G", "4G", "5G",
   "DECL_IS_PROP_FLAG", "LICD_DEC_PREP_TO_GRANT_FLAG", "LICD_REC_CONDI_FLAG",
   "Ess_To_Standard", "Ess_To_Project"]

/-- `DATE_ONLY_COLS` (= `FORCE_TEXT_COLS`) of normalization.py (lines 76-77). -/
def DATE_ONLY_COLS : List String :=
  ["IPRD_SIGNATURE_DATE", "Reflected_Date", "PBPA_APP_DATE"]

/-- The column-kind resolution of `Normalizer.apply` (normalization.py
lines 206-227) for the default `Normalizer()` used by `normal`. -/
def colKind (c : String) : ColKind :=
  if INT_COLS_EXPLICIT.contains c && !(DATE_ONLY_COLS.contains c) then ColKind.boolInt
  else if DATE_ONLY_COLS.contains c then ColKind.date
  else if c == "COMP_LEGAL_NAME" then ColKind.comp
  else ColKind.text

/-- `ERROR_TEXT` of normalization.py (line 37). -/
def ERROR_TEXT : PyStr := ['-', '1']

/-- The per-cell transformation of `Normalizer.apply` (normalization.py
lines 276-305): common cleanup, then the column-specific rewrite, then
integer coercion for flag columns or the text missing-value rule. -/
def normCell : ColKind → SVal → SVal
  | ColKind.boolInt, v => SVal.int (yn01e_to_int (dataNorm (svalStr v)))
  | ColKind.date, v =>
      SVal.text (if isMissing (dateOnly (dataNorm (svalStr v))) then ERROR_TEXT
                 else dateOnly (dataNorm (svalStr v)))
  | ColKind.comp, v =>
      SVal.text (if isMissing (compFix (dataNorm (svalStr v))) then ERROR_TEXT
                 else compFix (dataNorm (svalStr v)))
  | ColKind.text, v =>
      SVal.text (if isMissing (dataNorm (svalStr v)) then ERROR_TEXT
                 else dataNorm (svalStr v))

-- fmtDate ---------------------------------------------------------------

/-- The canonical `YYYY-MM-DD` shape emitted by both formatting branches
of `_date_only`. -/
def fmtDate (a : PyStr) (m d : Nat) : PyStr :=
  a ++ '-' :: (pad2 m ++ '-' :: pad2 d)

-- ============================================================
-- Table-level normalizer, loader, filters, dedup, compiler models
-- ============================================================

/-- A table as `Normalizer.apply` sees it: the non-ordinal column names
and, per row, the ordinal (`__src_rownum`, copied verbatim) and the cell
values in column order. -/
structure NTable where
  cols : List String
  rows : List (Int × List SVal)
deriving DecidableEq

/-- One row of `Normalizer.apply` (normalization.py lines 264-307): each
cell is rewritten by the rule of its column's kind. -/
def normalizeRow : List String → List SVal → List SVal
  | c :: cs, v :: vs => normCell (colKind c) v :: normalizeRow cs vs
  | _, _ => []

/-- `Normalizer.apply` on a whole table: every row is rewritten cell by
cell and the ordinal copied verbatim.  No row is dropped: the per-row
`except` (lines 309-311) is unreachable because every cell
transformation above is total. -/
def normalizeTable (t : NTable) : NTable :=
  ⟨t.cols, t.rows.map (fun r => (r.1, normalizeRow t.cols r.2))⟩

/-- Every date-column cell of the row normalizes to a string whose ends
are not whitespace (this can only fail when `_date_only` exposes an
unusual whitespace character, e.g. by removing a trailing day marker). -/
def dateOutOk : List String → List SVal → Bool
  | c :: cs, v :: vs =>
      (match colKind c with
       | ColKind.date => edgesOk (svalText (normCell ColKind.date v))
       | _ => true) && dateOutOk cs vs
  | _, _ => true

/-- One data row of `TableSQL.from_csv` (std/table_sql.py line 285):
`row[idx[h]] if idx[h] < len(row) else ""` per requested column, with
`readIdx` the header indices of the requested columns (which all exist:
a missing one raises before any row is read, lines 260-266). -/
def processRow (readIdx : List Nat) (row : List String) : List String :=
  readIdx.map (fun i => if i < row.length then row.getD i "" else "")

/-- The body of the per-row `try` in `from_csv`: its only operation is
the guarded list indexing above, which cannot fail, so it always
produces a row; the `except` path that counts a bad row is unreachable. -/
def processRow? (readIdx : List Nat) (row : List String) : Option (List String) :=
  some (processRow readIdx row)

/-- The ingestion loop of `from_csv` (std/table_sql.py lines 277-307):
`lines` counts every data row; a loaded row is stored with ordinal
`lines`; a failing row would only bump the bad-row counter.  Returns the
stored `(ordinal, fields)` list and the bad-row count, starting from
line counter `n`. -/
def loadCsv (readIdx : List Nat) : List (List String) → Nat →
    List (Nat × List String) × Nat
  | [], _ => ([], 0)
  | row :: rest, n =>
      match processRow? readIdx row with
      | some out => ((n + 1, out) :: (loadCsv readIdx rest (n + 1)).1,
          (loadCsv readIdx rest (n + 1)).2)
      | none => ((loadCsv readIdx rest (n + 1)).1,
          (loadCsv readIdx rest (n + 1)).2 + 1)

/-- The `WHERE` predicate emitted for a `where_ne` step by
`build_pipeline_sql` (std/table_sql.py lines 460-473): for a null
comparison value `col IS NOT NULL`; otherwise
`col IS NOT NULL AND col <> ?`.  Under SQL three-valued logic a NULL
cell satisfies neither form, so it is always excluded. -/
def whereNePred (val : Option String) (x : Option String) : Bool :=
  match val, x with
  | none, some _ => true
  | none, none => false
  | some v, some s => !(s == v)
  | some _, none => false

/-- The row set produced by the `where_ne` sub-query on the current row
set, with `col` reading the filtered column of a row. -/
def whereNe {α : Type} (col : α → Option String) (val : Option String)
    (rows : List α) : List α :=
  rows.filter (fun r => whereNePred val (col r))

/-- A row as seen by the `unique_by` window function: the ordinal
`__src_rownum`, the positional row identifier `__rid` (the SQLite rowid,
unique within one execution), the key column's value, and the remaining
visible columns. -/
structure DRow where
  rownum : Nat
  rid : Nat
  key : String
  rest : List String
deriving DecidableEq

/-- The `ORDER BY __src_rownum ASC, __rid ASC` ranking of `unique_by`. -/
def lexLe (a b : DRow) : Bool :=
  decide (a.rownum < b.rownum ∨ (a.rownum = b.rownum ∧ a.rid ≤ b.rid))

/-- The `unique_by` sub-query (std/table_sql.py lines 547-561):
`ROW_NUMBER() OVER (PARTITION BY key ORDER BY __src_rownum, __rid)`
keeps exactly the rank-1 row of each partition; since rowids are unique,
that is the partition's `lexLe`-least row, i.e. the rows that are
`lexLe`-below every row sharing their key. -/
def uniqueBy (rows : List DRow) : List DRow :=
  rows.filter (fun r => rows.all (fun q => !(q.key == r.key) || lexLe r q))

/-- The closed set of pipeline operations built by table_rule.py. -/
inductive Step where
  | where_eq : String → Option String → Step
  | where_ne : String → Option String → Step
  | where_all_eq : List (String × Option String) → Step
  | where_in : String → List String → Step
  | where_between : String → Option String → Option String → Step
  | concat : List String → String → String → Step
  | unique_by : String → Step
deriving DecidableEq

/-- `add_req` / `add_der` of `_need_cols_from_steps`: append if absent
(order-preserving set insertion). -/
def addUniq (h : String) (l : List String) : List String :=
  if h ∈ l then l else l ++ [h]

/-- One step of the requirement walk of `_need_cols_from_steps`
(std/table_sql.py lines 357-378): filters and `unique_by` require their
column, `concat` requires its inputs and derives its new head. -/
def stepCols (acc : List String × List String) : Step → List String × List String
  | Step.unique_by h => (addUniq h acc.1, acc.2)
  | Step.concat hs nh _ => (hs.foldl (fun r x => addUniq x r) acc.1, addUniq nh acc.2)
  | Step.where_eq h _ => (addUniq h acc.1, acc.2)
  | Step.where_ne h _ => (addUniq h acc.1, acc.2)
  | Step.where_in h _ => (addUniq h acc.1, acc.2)
  | Step.where_between h _ _ => (addUniq h acc.1, acc.2)
  | Step.where_all_eq m => ((m.map Prod.fst).foldl (fun r x => addUniq x r) acc.1, acc.2)

/-- `_need_cols_from_steps(steps, return_heads)` with an explicit
`return_heads` (std/table_sql.py lines 349-389): walk the steps, add the
return heads that are neither internal nor derived, then always add
`__src_rownum`. -/
def needColsSome (steps : List Step) (returnHeads : List String) :
    List String × List String :=
  ((addUniq "__src_rownum"
      (returnHeads.foldl (fun r h =>
        if h = "__rid" ∨ h = "__src_rownum" then r
        else if h ∈ (steps.foldl stepCols ([], [])).2 then r else addUniq h r)
        (steps.foldl stepCols ([], [])).1)),
   (steps.foldl stepCols ([], [])).2)

/-- `base_cols` of `build_pipeline_sql` (std/table_sql.py line 433): the
required heads that are not derived — these are exactly the columns the
base sub-query selects (plus the rowid alias `__rid`). -/
def baseColsOf (steps : List Step) (returnHeads : List String) : List String :=
  ((needColsSome steps returnHeads).1).filter
    (fun h => decide (h ∉ (needColsSome steps returnHeads).2))

/-- `final_cols` of `build_pipeline_sql` (std/table_sql.py lines
566-568): `__src_rownum` followed by the return heads minus the internal
columns. -/
def finalColsOf (returnHeads : List String) : List String :=
  "__src_rownum" :: returnHeads.filter
    (fun h => !(h == "__rid") && !(h == "__src_rownum"))

/-- The connection-ownership state of a `TableSQL` handle
(std/table_sql.py lines 168-172). -/
structure MTable where
  connId : Nat
  tableName : String
  owns_conn : Bool
deriving DecidableEq

/-- `TableSQL.close` (std/table_sql.py lines 174-179) acting on the set
of open connections: only an owning handle closes its connection. -/
def closeTable (t : MTable) (openConns : Nat → Bool) : Nat → Bool :=
  if t.owns_conn then fun c => if c = t.connId then false else openConns c
  else openConns

/-- The handle returned by `apply_plan` (std/table_sql.py line 617): the
source's connection with `owns_conn=False`. -/
def applyPlanTable (t : MTable) (outName : String) : MTable :=
  ⟨t.connId, outName, false⟩

/-- The handle returned by `TableSQL.from_csv` (std/table_sql.py line
316): the freshly opened connection with `owns_conn=True`. -/
def fromCsvTable (connId : Nat) (name : String) : MTable :=
  ⟨connId, name, true⟩

/-- SQLite `TRIM(X)`: removes space characters (only U+0020) from both
ends of the string. -/
def sqliteTrim (s : PyStr) : PyStr := stripWith (fun c => c == ' ') s

/-- One input of the concat expression emitted by `build_pipeline_sql`
(std/table_sql.py line 540): `TRIM(COALESCE(CAST(col AS TEXT), ''))` —
a NULL cell becomes the empty string, then spaces are trimmed. -/
def concatPart (x : Option PyStr) : PyStr := sqliteTrim (x.getD [])

/-- The tail of the concat expression (std/table_sql.py lines 537-540):
from the second input on, the separator literal is prepended when the
separator is non-empty. -/
def concatRest (sep : PyStr) : List (Option PyStr) → PyStr
  | [] => []
  | v :: rest => (if sep = [] then [] else sep) ++ concatPart v ++ concatRest sep rest

/-- The derived-column value of a `concat` step for one row, given the
values of the input columns in order. -/
def concatExpr (sep : PyStr) : List (Option PyStr) → PyStr
  | [] => []
  | v :: rest => concatPart v ++ concatRest sep rest

-- ============================================================
-- Generic lemmas about the string primitives
-- ============================================================

theorem dropWhile_head_false (p : Char → Bool) :
    ∀ (l : PyStr) (c : Char), (l.dropWhile p).head? = some c → p c = false := by
  intro l
  induction l with
  | nil => intro c h; simp [List.dropWhile] at h
  | cons a t ih =>
      intro c h
      by_cases hp : p a = true
      · rw [List.dropWhile_cons_of_pos hp] at h; exact ih c h
      · rw [List.dropWhile_cons_of_neg hp] at h
        simp at h
        rw [← h]
        exact Bool.eq_false_iff.mpr hp

theorem dropWhile_eq_self (p : Char → Bool) (l : PyStr)
    (h : ∀ c, l.head? = some c → p c = false) : l.dropWhile p = l := by
  cases l with
  | nil => rfl
  | cons a t =>
      have := h a (by simp)
      simp [List.dropWhile_cons, this]

theorem mem_dropWhile (p : Char → Bool) (l : PyStr) (c : Char)
    (h : c ∈ l.dropWhile p) : c ∈ l := by
  induction l with
  | nil => simp [List.dropWhile] at h
  | cons a t ih =>
      by_cases hp : p a = true
      · rw [List.dropWhile_cons_of_pos hp] at h
        exact List.mem_cons_of_mem a (ih h)
      · rwa [List.dropWhile_cons_of_neg hp] at h

theorem getLast?_dropWhile (p : Char → Bool) (l : PyStr)
    (h : l.dropWhile p ≠ []) : (l.dropWhile p).getLast? = l.getLast? := by
  induction l with
  | nil => simp [List.dropWhile] at h
  | cons a t ih =>
      by_cases hp : p a = true
      · rw [List.dropWhile_cons_of_pos hp] at h ⊢
        have ht : t ≠ [] := by
          intro he; rw [he] at h; simp [List.dropWhile] at h
        rw [ih h]
        cases t with
        | nil => exact absurd rfl ht
        | cons b u => rw [List.getLast?_cons_cons]
      · rw [List.dropWhile_cons_of_neg hp]

theorem stripWith_head (p : Char → Bool) (s : PyStr) (c : Char)
    (h : (stripWith p s).head? = some c) : p c = false := by
  unfold stripWith at h
  set u := s.dropWhile p with hu
  set w := u.reverse.dropWhile p with hw
  rw [List.head?_reverse] at h
  have hne : w ≠ [] := by
    intro he; rw [he] at h; simp at h
  rw [hw, getLast?_dropWhile p u.reverse (hw ▸ hne), List.getLast?_reverse] at h
  exact dropWhile_head_false p s c (hu ▸ h)

theorem stripWith_last (p : Char → Bool) (s : PyStr) (c : Char)
    (h : (stripWith p s).getLast? = some c) : p c = false := by
  unfold stripWith at h
  rw [List.getLast?_reverse] at h
  exact dropWhile_head_false p _ c h

theorem stripWith_eq_self (p : Char → Bool) (s : PyStr)
    (hh : ∀ c, s.head? = some c → p c = false)
    (hl : ∀ c, s.getLast? = some c → p c = false) : stripWith p s = s := by
  unfold stripWith
  rw [dropWhile_eq_self p s hh]
  rw [dropWhile_eq_self p s.reverse (fun c hc => hl c (by rwa [List.head?_reverse] at hc))]
  exact List.reverse_reverse s

theorem mem_stripWith (p : Char → Bool) (s : PyStr) (c : Char)
    (h : c ∈ stripWith p s) : c ∈ s := by
  unfold stripWith at h
  rw [List.mem_reverse] at h
  have := mem_dropWhile p _ c h
  rw [List.mem_reverse] at this
  exact mem_dropWhile p s c this

theorem edgesOk_iff (s : PyStr) : edgesOk s = true ↔
    (∀ c, s.head? = some c → pyWs c = false) ∧
    (∀ c, s.getLast? = some c → pyWs c = false) := by
  constructor
  · intro h
    rw [edgesOk, Bool.and_eq_true] at h
    constructor
    · intro c hc
      have := h.1
      rw [edgeHeadOk, hc] at this
      simpa using this
    · intro c hc
      have := h.2
      rw [edgeLastOk, hc] at this
      simpa using this
  · intro ⟨hh, hl⟩
    rw [edgesOk, Bool.and_eq_true]
    constructor
    · rw [edgeHeadOk]
      cases hc : s.head? with
      | none => rfl
      | some c => simpa using hh c hc
    · rw [edgeLastOk]
      cases hc : s.getLast? with
      | none => rfl
      | some c => simpa using hl c hc

theorem pyStrip_edgesOk (s : PyStr) : edgesOk (pyStrip s) = true := by
  rw [edgesOk_iff]
  exact ⟨stripWith_head pyWs s, stripWith_last pyWs s⟩

theorem pyStrip_eq_self (s : PyStr) (h : edgesOk s = true) : pyStrip s = s := by
  rw [edgesOk_iff] at h
  exact stripWith_eq_self pyWs s h.1 h.2

theorem mem_pyStrip (s : PyStr) (c : Char) (h : c ∈ pyStrip s) : c ∈ s :=
  mem_stripWith pyWs s c h

-- squeezeSpaces --------------------------------------------------------

theorem squeezeSpaces_head? (l : PyStr) : (squeezeSpaces l).head? = l.head? := by
  induction l using squeezeSpaces.induct with
  | case1 c d rest hcd ih =>
      rw [squeezeSpaces, if_pos hcd, ih]
      simp only [Bool.and_eq_true, decide_eq_true_eq] at hcd
      simp [hcd.1, hcd.2]
  | case2 c d rest hcd ih =>
      rw [squeezeSpaces, if_neg hcd]
      rfl
  | case3 s h1 =>
      cases s with
      | nil => rfl
      | cons a t =>
          cases t with
          | nil => rfl
          | cons b u => exact (h1 a b u rfl).elim

theorem getLast?_cons_of_ne_nil (a : Char) (t : PyStr) (h : t ≠ []) :
    (a :: t).getLast? = t.getLast? := by
  cases t with
  | nil => exact absurd rfl h
  | cons b u => rw [List.getLast?_cons_cons]

theorem squeezeSpaces_getLast? (l : PyStr) :
    (squeezeSpaces l).getLast? = l.getLast? := by
  induction l using squeezeSpaces.induct with
  | case1 c d rest hcd ih =>
      rw [squeezeSpaces, if_pos hcd, ih, List.getLast?_cons_cons]
  | case2 c d rest hcd ih =>
      rw [squeezeSpaces, if_neg hcd]
      have hne : squeezeSpaces (d :: rest) ≠ [] := by
        intro he
        have := squeezeSpaces_head? (d :: rest)
        rw [he] at this
        simp at this
      rw [getLast?_cons_of_ne_nil c _ hne, ih, List.getLast?_cons_cons]
  | case3 s h1 =>
      cases s with
      | nil => rfl
      | cons a t =>
          cases t with
          | nil => rfl
          | cons b u => exact (h1 a b u rfl).elim

theorem mem_squeezeSpaces (l : PyStr) (c : Char)
    (h : c ∈ squeezeSpaces l) : c ∈ l := by
  induction l using squeezeSpaces.induct with
  | case1 a d rest hcd ih =>
      rw [squeezeSpaces, if_pos hcd] at h
      exact List.mem_cons_of_mem a (ih h)
  | case2 a d rest hcd ih =>
      rw [squeezeSpaces, if_neg hcd] at h
      rcases List.mem_cons.mp h with h | h
      · exact h ▸ List.mem_cons_self a _
      · exact List.mem_cons_of_mem a (ih h)
  | case3 s h1 =>
      cases s with
      | nil => exact h
      | cons a t =>
          cases t with
          | nil => exact h
          | cons b u => exact (h1 a b u rfl).elim

theorem squeezeSpaces_noDbl (l : PyStr) : noDbl (squeezeSpaces l) = true := by
  induction l using squeezeSpaces.induct with
  | case1 c d rest hcd ih => rw [squeezeSpaces, if_pos hcd]; exact ih
  | case2 c d rest hcd ih =>
      rw [squeezeSpaces, if_neg hcd]
      cases hx : squeezeSpaces (d :: rest) with
      | nil => rfl
      | cons x xs =>
          have hhd : d = x := by
            have := squeezeSpaces_head? (d :: rest)
            rw [hx] at this
            simpa using this.symm
          rw [noDbl, Bool.and_eq_true]
          refine ⟨?_, hx ▸ ih⟩
          rw [← hhd]
          simp only [Bool.not_eq_true']
          exact Bool.not_eq_true _ ▸ Bool.eq_false_iff.mpr hcd
  | case3 s h1 =>
      cases s with
      | nil => rfl
      | cons a t =>
          cases t with
          | nil => rfl
          | cons b u => exact (h1 a b u rfl).elim

theorem squeezeSpaces_eq_self (l : PyStr) (h : noDbl l = true) :
    squeezeSpaces l = l := by
  induction l using squeezeSpaces.induct with
  | case1 c d rest hcd ih =>
      rw [noDbl, Bool.and_eq_true] at h
      rw [hcd] at h
      simp at h
  | case2 c d rest hcd ih =>
      rw [noDbl, Bool.and_eq_true] at h
      rw [squeezeSpaces, if_neg hcd, ih h.2]
  | case3 s h1 =>
      cases s with
      | nil => rfl
      | cons a t =>
          cases t with
          | nil => rfl
          | cons b u => exact (h1 a b u rfl).elim

theorem noBadChar_iff (s : PyStr) : noBadChar s = true ↔
    ∀ c ∈ s, c ≠ '\r' ∧ c ≠ '\n' ∧ c ≠ '\t' := by
  rw [noBadChar, List.all_eq_true]
  constructor
  · intro h c hc
    have := h c hc
    simp only [Bool.and_eq_true, Bool.not_eq_true', beq_eq_false_iff_ne] at this
    exact ⟨this.1.1, this.1.2, this.2⟩
  · intro h c hc
    have := h c hc
    simp only [Bool.and_eq_true, Bool.not_eq_true', beq_eq_false_iff_ne]
    exact ⟨⟨this.1, this.2.1⟩, this.2.2⟩

theorem mem_replCRLF (s : PyStr) (c : Char) (h : c ∈ replCRLF s) :
    c = ' ' ∨ c ∈ s := by
  induction s using replCRLF.induct with
  | case1 rest ih =>
      rw [replCRLF] at h
      rcases List.mem_cons.mp h with h | h
      · exact Or.inl h
      · rcases ih h with h | h
        · exact Or.inl h
        · exact Or.inr (List.mem_cons_of_mem _ (List.mem_cons_of_mem _ h))
  | case2 d rest hne ih =>
      have heq : replCRLF (d :: rest) = d :: replCRLF rest := by
        rw [replCRLF]
        exact hne
      rw [heq] at h
      rcases List.mem_cons.mp h with h | h
      · exact Or.inr (h ▸ List.mem_cons_self d rest)
      · rcases ih h with h | h
        · exact Or.inl h
        · exact Or.inr (List.mem_cons_of_mem d h)
  | case3 => rw [replCRLF] at h; exact absurd h (List.not_mem_nil c)

theorem replCRLF_eq_self (s : PyStr) (h : '\r' ∉ s) : replCRLF s = s := by
  induction s using replCRLF.induct with
  | case1 rest ih => exact absurd (List.mem_cons_self '\r' _) h
  | case2 d rest hne ih =>
      have heq : replCRLF (d :: rest) = d :: replCRLF rest := by
        rw [replCRLF]
        exact hne
      rw [heq, ih (fun hm => h (List.mem_cons_of_mem d hm))]
  | case3 => rfl

theorem mem_replChar (a b : Char) (s : PyStr) (c : Char)
    (h : c ∈ replChar a b s) : c = b ∨ (c ∈ s ∧ c ≠ a) := by
  rw [replChar, List.mem_map] at h
  obtain ⟨x, hx, hc⟩ := h
  by_cases hxa : x = a
  · rw [hxa, if_pos rfl] at hc; exact Or.inl hc.symm
  · rw [if_neg hxa] at hc
    exact Or.inr ⟨hc ▸ hx, hc ▸ hxa⟩

theorem not_mem_replChar_self (a b : Char) (s : PyStr) (hab : a ≠ b) :
    a ∉ replChar a b s := by
  intro h
  rcases mem_replChar a b s a h with h | h
  · exact hab h
  · exact h.2 rfl

theorem not_mem_replChar (a b z : Char) (s : PyStr) (hz : z ∉ s) (hb : z ≠ b) :
    z ∉ replChar a b s := by
  intro h
  rcases mem_replChar a b s z h with h | h
  · exact hb h
  · exact hz h.1

theorem replChar_eq_self (a b : Char) (s : PyStr) (h : a ∉ s) :
    replChar a b s = s := by
  rw [replChar]
  have hfix : ∀ x ∈ s, (if x = a then b else x) = x := by
    intro x hx
    by_cases hxa : x = a
    · exact absurd (hxa ▸ hx) h
    · rw [if_neg hxa]
  rw [List.map_congr_left hfix]
  simp

theorem head?_replChar (a b : Char) (s : PyStr) :
    (replChar a b s).head? = s.head?.map (fun c => if c = a then b else c) := by
  rw [replChar, List.head?_map]

theorem getLast?_replChar (a b : Char) (s : PyStr) :
    (replChar a b s).getLast? = s.getLast?.map (fun c => if c = a then b else c) := by
  rw [replChar, List.getLast?_map]

theorem mem_dropChar (a : Char) (s : PyStr) (c : Char) (h : c ∈ dropChar a s) :
    c ∈ s ∧ c ≠ a := by
  rw [dropChar, List.mem_filter] at h
  refine ⟨h.1, ?_⟩
  have := h.2
  simpa using this

theorem dropChar_eq_self (a : Char) (s : PyStr) (h : a ∉ s) :
    dropChar a s = s := by
  rw [dropChar, List.filter_eq_self]
  intro c hc
  have hca : c ≠ a := fun he => h (he ▸ hc)
  simpa using hca

-- dataNorm -------------------------------------------------------------

theorem replNl_no_cr (s : PyStr) : '\r' ∉ replNl s := by
  rw [replNl]
  exact not_mem_replChar '\n' ' ' '\r' _
    (not_mem_replChar_self '\r' ' ' _ (by decide)) (by decide)

theorem replNl_no_lf (s : PyStr) : '\n' ∉ replNl s :=
  not_mem_replChar_self '\n' ' ' _ (by decide)

theorem dataNorm_noBadChar (s : PyStr) : noBadChar (dataNorm s) = true := by
  rw [noBadChar_iff]
  intro c hc
  rw [dataNorm] at hc
  have hc2 := mem_squeezeSpaces _ c hc
  rcases mem_replChar '\t' ' ' _ c hc2 with h | ⟨h, htab⟩
  · subst h; exact ⟨by decide, by decide, by decide⟩
  · have hmem : c ∈ replNl s := mem_pyStrip _ c h
    exact ⟨fun he => replNl_no_cr s (he ▸ hmem), fun he => replNl_no_lf s (he ▸ hmem),
      htab⟩

theorem dataNorm_noDbl (s : PyStr) : noDbl (dataNorm s) = true :=
  squeezeSpaces_noDbl _

theorem dataNorm_edgesOk (s : PyStr) : edgesOk (dataNorm s) = true := by
  rw [edgesOk_iff]
  have hstrip := pyStrip_edgesOk (replNl s)
  rw [edgesOk_iff] at hstrip
  constructor
  · intro c hc
    rw [dataNorm, squeezeSpaces_head?, head?_replChar] at hc
    cases hh : (pyStrip (replNl s)).head? with
    | none => rw [hh] at hc; simp at hc
    | some d =>
        rw [hh] at hc
        simp only [Option.map_some'] at hc
        have hd := hstrip.1 d hh
        have hdt : d ≠ '\t' := by
          intro he; rw [he] at hd; simp [pyWs] at hd
        rw [if_neg hdt] at hc
        obtain rfl : d = c := by simpa using hc
        exact hd
  · intro c hc
    rw [dataNorm, squeezeSpaces_getLast?, getLast?_replChar] at hc
    cases hh : (pyStrip (replNl s)).getLast? with
    | none => rw [hh] at hc; simp at hc
    | some d =>
        rw [hh] at hc
        simp only [Option.map_some'] at hc
        have hd := hstrip.2 d hh
        have hdt : d ≠ '\t' := by
          intro he; rw [he] at hd; simp [pyWs] at hd
        rw [if_neg hdt] at hc
        obtain rfl : d = c := by simpa using hc
        exact hd

theorem dataNorm_isClean (s : PyStr) : isCleanStr (dataNorm s) = true := by
  rw [isCleanStr, Bool.and_eq_true, Bool.and_eq_true]
  exact ⟨⟨dataNorm_noBadChar s, dataNorm_noDbl s⟩, dataNorm_edgesOk s⟩

theorem dataNorm_eq_self (s : PyStr) (h : isCleanStr s = true) : dataNorm s = s := by
  rw [isCleanStr, Bool.and_eq_true, Bool.and_eq_true] at h
  obtain ⟨⟨hbad, hdbl⟩, hedge⟩ := h
  rw [noBadChar_iff] at hbad
  have hcr : '\r' ∉ s := fun hm => (hbad _ hm).1 rfl
  have hlf : '\n' ∉ s := fun hm => (hbad _ hm).2.1 rfl
  have htab : '\t' ∉ s := fun hm => (hbad _ hm).2.2 rfl
  have h1 : replNl s = s := by
    rw [replNl, replCRLF_eq_self s hcr, replChar_eq_self '\r' ' ' s hcr,
      replChar_eq_self '\n' ' ' s hlf]
  rw [dataNorm, h1, pyStrip_eq_self s hedge, replChar_eq_self '\t' ' ' s htab,
    squeezeSpaces_eq_self s hdbl]

theorem dataNorm_idem (s : PyStr) : dataNorm (dataNorm s) = dataNorm s :=
  dataNorm_eq_self (dataNorm s) (dataNorm_isClean s)

-- Digit and takeWhile facts ---------------------------------------------

theorem mem_takeWhile_both (p : Char → Bool) (l : PyStr) (c : Char)
    (h : c ∈ l.takeWhile p) : c ∈ l ∧ p c = true := by
  induction l with
  | nil => simp [List.takeWhile] at h
  | cons a t ih =>
      by_cases hp : p a = true
      · rw [List.takeWhile_cons_of_pos hp] at h
        rcases List.mem_cons.mp h with h | h
        · exact ⟨h ▸ List.mem_cons_self a t, h ▸ hp⟩
        · obtain ⟨h1, h2⟩ := ih h
          exact ⟨List.mem_cons_of_mem a h1, h2⟩
      · rw [List.takeWhile_cons_of_neg hp] at h
        exact absurd h (List.not_mem_nil c)

theorem takeWhile_eq_self (p : Char → Bool) (l : PyStr)
    (h : ∀ c ∈ l, p c = true) : l.takeWhile p = l := by
  induction l with
  | nil => rfl
  | cons a t ih =>
      rw [List.takeWhile_cons_of_pos (h a (List.mem_cons_self a t)),
        ih (fun c hc => h c (List.mem_cons_of_mem a hc))]

theorem isDig_cases (c : Char) (h : isDig c = true) :
    c = '0' ∨ c = '1' ∨ c = '2' ∨ c = '3' ∨ c = '4' ∨
    c = '5' ∨ c = '6' ∨ c = '7' ∨ c = '8' ∨ c = '9' := by
  simp only [isDig, Bool.or_eq_true, beq_iff_eq] at h
  tauto

theorem isDig_not_ws (c : Char) (h : isDig c = true) : pyWs c = false := by
  rcases isDig_cases c h with rfl|rfl|rfl|rfl|rfl|rfl|rfl|rfl|rfl|rfl <;> decide

theorem isDig_ne (c : Char) (h : isDig c = true) :
    c ≠ '-' ∧ c ≠ ' ' ∧ c ≠ 'T' ∧ c ≠ '年' ∧ c ≠ '月' ∧ c ≠ '日' ∧
    c ≠ '/' ∧ c ≠ '.' ∧ c ≠ '\r' ∧ c ≠ '\n' ∧ c ≠ '\t' := by
  rcases isDig_cases c h with rfl|rfl|rfl|rfl|rfl|rfl|rfl|rfl|rfl|rfl <;> decide

theorem digitChar_isDig (n : Nat) (h : n ≤ 9) : isDig (Nat.digitChar n) = true := by
  interval_cases n <;> decide

theorem charVal_digitChar (n : Nat) (h : n ≤ 9) : charVal (Nat.digitChar n) = n := by
  interval_cases n <;> decide

theorem digitChar_charVal (c : Char) (h : isDig c = true) :
    Nat.digitChar (charVal c) = c := by
  rcases isDig_cases c h with rfl|rfl|rfl|rfl|rfl|rfl|rfl|rfl|rfl|rfl <;> decide

theorem charVal_le (c : Char) (h : isDig c = true) : charVal c ≤ 9 := by
  rcases isDig_cases c h with rfl|rfl|rfl|rfl|rfl|rfl|rfl|rfl|rfl|rfl <;> decide

theorem allDigits_sublist (s t : PyStr) (hsub : s.Sublist t)
    (h : allDigits t = true) : allDigits s = true := by
  rw [allDigits, List.all_eq_true] at h ⊢
  exact fun c hc => h c (hsub.mem hc)

theorem noDbl_of_no_space (l : PyStr) (h : ' ' ∉ l) : noDbl l = true := by
  induction l with
  | nil => rfl
  | cons a t ih =>
      cases t with
      | nil => rfl
      | cons b u =>
          rw [noDbl, Bool.and_eq_true]
          refine ⟨?_, ih (fun hm => h (List.mem_cons_of_mem a hm))⟩

          have ha : a ≠ ' ' := fun he => h (he ▸ List.mem_cons_self a _)

          simp [ha]

-- pad2 ------------------------------------------------------------------

theorem pad2_allDigits (n : Nat) (h : n < 100) : allDigits (pad2 n) = true := by
  have h1 : n / 10 ≤ 9 := by omega
  have h2 : n % 10 ≤ 9 := by omega
  rw [pad2, allDigits, List.all_eq_true]
  intro c hc
  rcases List.mem_cons.mp hc with rfl | hc
  · exact digitChar_isDig _ h1
  · rcases List.mem_cons.mp hc with rfl | hc
    · exact digitChar_isDig _ h2
    · exact absurd hc (List.not_mem_nil c)

theorem digitsToNat_pad2 (n : Nat) (h : n < 100) : digitsToNat (pad2 n) = n := by
  have h1 : n / 10 ≤ 9 := by omega
  have h2 : n % 10 ≤ 9 := by omega
  simp only [digitsToNat, pad2, List.foldl_cons, List.foldl_nil]
  rw [charVal_digitChar _ h1, charVal_digitChar _ h2]
  omega

theorem pad2_digitsToNat (b : PyStr) (hl : b.length = 2)
    (hd : allDigits b = true) : pad2 (digitsToNat b) = b := by
  match b, hl with
  | [c1, c2], _ =>
      rw [allDigits, List.all_eq_true] at hd
      have h1 : isDig c1 = true := hd c1 (by simp)
      have h2 : isDig c2 = true := hd c2 (by simp)
      have hv1 : charVal c1 ≤ 9 := charVal_le c1 h1
      have hv2 : charVal c2 ≤ 9 := charVal_le c2 h2
      have he : digitsToNat [c1, c2] = charVal c1 * 10 + charVal c2 := by
        simp only [digitsToNat, List.foldl_cons, List.foldl_nil]
        omega
      rw [he, pad2]
      have hdiv : (charVal c1 * 10 + charVal c2) / 10 = charVal c1 := by omega
      have hmod : (charVal c1 * 10 + charVal c2) % 10 = charVal c2 := by omega
      rw [hdiv, hmod, digitChar_charVal c1 h1, digitChar_charVal c2 h2]

theorem digitsToNat_lt_100 (b : PyStr) (hl : b.length ≤ 2)
    (hd : allDigits b = true) : digitsToNat b < 100 := by
  match b, hl with
  | [], _ => decide
  | [c1], _ =>
      rw [allDigits, List.all_eq_true] at hd
      have := charVal_le c1 (hd c1 (by simp))
      simp only [digitsToNat, List.foldl_cons, List.foldl_nil]
      omega
  | [c1, c2], _ =>
      rw [allDigits, List.all_eq_true] at hd
      have i1 := charVal_le c1 (hd c1 (by simp))
      have i2 := charVal_le c2 (hd c2 (by simp))
      simp only [digitsToNat, List.foldl_cons, List.foldl_nil]
      omega

-- splitDash -------------------------------------------------------------

theorem splitDash_no_dash (s : PyStr) (h : '-' ∉ s) : splitDash s = [s] := by
  induction s with
  | nil => rfl
  | cons c rest ih =>
      have hc : c ≠ '-' := fun he => h (he ▸ List.mem_cons_self c rest)
      rw [splitDash, if_neg hc, ih (fun hm => h (List.mem_cons_of_mem c hm))]
      rfl

theorem splitDash_append (a r : PyStr) (h : '-' ∉ a) :
    splitDash (a ++ '-' :: r) = a :: splitDash r := by
  induction a with
  | nil => rw [List.nil_append, splitDash, if_pos rfl]
  | cons c a2 ih =>
      have hc : c ≠ '-' := fun he => h (he ▸ List.mem_cons_self c a2)
      rw [List.cons_append, splitDash, if_neg hc,
        ih (fun hm => h (List.mem_cons_of_mem c hm))]
      rfl

-- dateRepl --------------------------------------------------------------

theorem dateRepl_eq_self (s : PyStr)
    (h : ∀ c ∈ s, c ≠ '年' ∧ c ≠ '月' ∧ c ≠ '日' ∧ c ≠ '/' ∧ c ≠ '.') :
    dateRepl s = s := by
  rw [dateRepl]
  rw [replChar_eq_self '年' '-' s (fun hm => (h _ hm).1 rfl)]
  rw [replChar_eq_self '月' '-' s (fun hm => (h _ hm).2.1 rfl)]
  rw [dropChar_eq_self '日' s (fun hm => (h _ hm).2.2.1 rfl)]
  rw [replChar_eq_self '/' '-' s (fun hm => (h _ hm).2.2.2.1 rfl)]
  rw [replChar_eq_self '.' '-' s (fun hm => (h _ hm).2.2.2.2 rfl)]

theorem splitFirstST_eq_self (s : PyStr) (h : ∀ c ∈ s, c ≠ ' ' ∧ c ≠ 'T') :
    splitFirstST s = s := by
  rw [splitFirstST]
  apply takeWhile_eq_self
  intro c hc
  have := h c hc
  simp [this.1, this.2]

/-- Character domain of the string handed to the shape analysis of
`_date_only`: after the cut at the first space/`T` and the punctuation
rewrite, only dashes and characters of the input that are none of the
rewritten ones remain. -/
theorem s3_chars (s0 : PyStr) (c : Char)
    (h : c ∈ dateRepl (pyStrip (splitFirstST s0))) :
    (c = '-' ∨ c ∈ s0) ∧
    (c ≠ ' ' ∧ c ≠ 'T' ∧ c ≠ '年' ∧ c ≠ '月' ∧ c ≠ '日' ∧ c ≠ '/' ∧ c ≠ '.') := by
  rw [dateRepl] at h
  rcases mem_replChar '.' '-' _ c h with rfl | ⟨h, hdot⟩
  · exact ⟨Or.inl rfl, by decide⟩
  rcases mem_replChar '/' '-' _ c h with rfl | ⟨h, hslash⟩
  · exact ⟨Or.inl rfl, by decide⟩
  obtain ⟨h, hday⟩ := mem_dropChar '日' _ c h
  rcases mem_replChar '月' '-' _ c h with rfl | ⟨h, hmonth⟩
  · exact ⟨Or.inl rfl, by decide⟩
  rcases mem_replChar '年' '-' _ c h with rfl | ⟨h, hyear⟩
  · exact ⟨Or.inl rfl, by decide⟩
  obtain ⟨hmem, hp⟩ := mem_takeWhile_both _ s0 c (mem_stripWith pyWs _ c h)
  simp only [Bool.and_eq_true, Bool.not_eq_true', beq_eq_false_iff_ne] at hp
  exact ⟨Or.inr hmem, hp.1, hp.2, hyear, hmonth, hday, hslash, hdot⟩

theorem fmtDate_length (a : PyStr) (m d : Nat) (ha : a.length = 4) :
    (fmtDate a m d).length = 10 := by
  simp [fmtDate, pad2, ha]

theorem fmtDate_chars (a : PyStr) (m d : Nat)
    (had : allDigits a = true) (hm : m < 100) (hd : d < 100) (c : Char)
    (hc : c ∈ fmtDate a m d) : isDig c = true ∨ c = '-' := by
  rw [allDigits, List.all_eq_true] at had
  have hpm := pad2_allDigits m hm
  have hpd := pad2_allDigits d hd
  rw [allDigits, List.all_eq_true] at hpm hpd
  rw [fmtDate] at hc
  rcases List.mem_append.mp hc with hc | hc
  · exact Or.inl (had c hc)
  rcases List.mem_cons.mp hc with rfl | hc
  · exact Or.inr rfl
  rcases List.mem_append.mp hc with hc | hc
  · exact Or.inl (hpm c hc)
  rcases List.mem_cons.mp hc with rfl | hc
  · exact Or.inr rfl
  · exact Or.inl (hpd c hc)

theorem fmtDate_edgesOk (a : PyStr) (m d : Nat) (ha : a.length = 4)
    (had : allDigits a = true) (hm : m < 100) (hd : d < 100) :
    edgesOk (fmtDate a m d) = true := by
  rw [edgesOk_iff]
  constructor
  · intro c hc
    cases a with
    | nil => simp at ha
    | cons x a2 =>
        rw [allDigits, List.all_eq_true] at had
        have hx : isDig x = true := had x (List.mem_cons_self x a2)
        have : (fmtDate (x :: a2) m d).head? = some x := rfl
        rw [this] at hc
        obtain rfl : x = c := by simpa using hc
        exact isDig_not_ws x hx
  · intro c hc
    have hsplit : fmtDate a m d =
        (a ++ '-' :: (pad2 m ++ ['-', Nat.digitChar (d / 10)])) ++
          [Nat.digitChar (d % 10)] := by
      simp [fmtDate, pad2]
    rw [hsplit, List.getLast?_concat] at hc
    obtain rfl : Nat.digitChar (d % 10) = c := by simpa using hc
    exact isDig_not_ws _ (digitChar_isDig _ (by omega))

theorem fmtDate_isClean (a : PyStr) (m d : Nat) (ha : a.length = 4)
    (had : allDigits a = true) (hm : m < 100) (hd : d < 100) :
    isCleanStr (fmtDate a m d) = true := by
  rw [isCleanStr, Bool.and_eq_true, Bool.and_eq_true]
  refine ⟨⟨?_, ?_⟩, fmtDate_edgesOk a m d ha had hm hd⟩
  · rw [noBadChar_iff]
    intro c hc
    rcases fmtDate_chars a m d had hm hd c hc with h | rfl
    · have := isDig_ne c h
      exact ⟨this.2.2.2.2.2.2.2.2.1, this.2.2.2.2.2.2.2.2.2.1, this.2.2.2.2.2.2.2.2.2.2⟩
    · exact ⟨by decide, by decide, by decide⟩
  · apply noDbl_of_no_space
    intro hs
    rcases fmtDate_chars a m d had hm hd ' ' hs with h | h
    · exact absurd h (by decide)
    · exact absurd h (by decide)

theorem missingTokens_short : ∀ x ∈ missingTokens, x.length ≤ 7 := by decide

theorem isMissing_fmtDate (a : PyStr) (m d : Nat) (ha : a.length = 4)
    (had : allDigits a = true) (hm : m < 100) (hd : d < 100) :
    isMissing (fmtDate a m d) = false := by
  rw [isMissing, pyStrip_eq_self _ (fmtDate_edgesOk a m d ha had hm hd),
    decide_eq_false_iff_not]
  intro hmem
  have h7 := missingTokens_short _ hmem
  have h10 : (pyLower (fmtDate a m d)).length = 10 := by
    rw [pyLower, List.length_map, fmtDate_length a m d ha]
  omega

theorem dateCore_fmtDate (a : PyStr) (m d : Nat) (ha : a.length = 4)
    (had : allDigits a = true) (hm : m < 100) (hd : d < 100) :
    dateCore (fmtDate a m d) = fmtDate a m d := by
  have hdash : '-' ∈ fmtDate a m d := by
    rw [fmtDate]
    exact List.mem_append_right a (List.mem_cons_self _ _)
  have hall : allDigits (fmtDate a m d) = false := by
    cases hb : allDigits (fmtDate a m d) with
    | false => rfl
    | true =>
        rw [allDigits, List.all_eq_true] at hb
        exact absurd (hb '-' hdash) (by decide)
  have hnda : '-' ∉ a := by
    intro hmem
    rw [allDigits, List.all_eq_true] at had
    exact absurd (had '-' hmem) (by decide)
  have hndm : '-' ∉ pad2 m := by
    intro hmem
    have := pad2_allDigits m hm
    rw [allDigits, List.all_eq_true] at this
    exact absurd (this '-' hmem) (by decide)
  have hndd : '-' ∉ pad2 d := by
    intro hmem
    have := pad2_allDigits d hd
    rw [allDigits, List.all_eq_true] at this
    exact absurd (this '-' hmem) (by decide)
  have hsplit : splitDash (fmtDate a m d) = [a, pad2 m, pad2 d] := by
    rw [fmtDate, splitDash_append a _ hnda, splitDash_append (pad2 m) _ hndm,
      splitDash_no_dash _ hndd]
  have hplm : (pad2 m).length = 2 := rfl
  have hpld : (pad2 d).length = 2 := rfl
  have hcond : ((a.length == 4) && allDigits a &&
      ((pad2 m).length == 1 || (pad2 m).length == 2) && allDigits (pad2 m) &&
      ((pad2 d).length == 1 || (pad2 d).length == 2) && allDigits (pad2 d)) = true := by
    simp [ha, had, hplm, hpld, pad2_allDigits m hm, pad2_allDigits d hd]
  rw [dateCore, hall]
  simp only [Bool.false_and, if_neg Bool.false_ne_true]
  rw [hsplit]
  simp only [hcond, if_pos]
  rw [digitsToNat_pad2 m hm, digitsToNat_pad2 d hd]
  rfl

theorem dateCore_cases (s3 : PyStr) :
    (∃ a m dd, a.length = 4 ∧ allDigits a = true ∧ m < 100 ∧ dd < 100 ∧
      dateCore s3 = fmtDate a m dd) ∨ dateCore s3 = s3 := by
  by_cases h8 : (allDigits s3 && (s3.length == 8)) = true
  · left
    have h8b := h8
    rw [Bool.and_eq_true] at h8b
    obtain ⟨hall, hlenb⟩ := h8b
    have hlen8 : s3.length = 8 := by simpa using hlenb
    have hsub1 : List.Sublist ((s3.drop 4).take 2) s3 :=
      (List.take_sublist _ _).trans (List.drop_sublist _ _)
    have hsub2 : List.Sublist ((s3.drop 6).take 2) s3 :=
      (List.take_sublist _ _).trans (List.drop_sublist _ _)
    have hd1 : allDigits ((s3.drop 4).take 2) = true := allDigits_sublist _ _ hsub1 hall
    have hd2 : allDigits ((s3.drop 6).take 2) = true := allDigits_sublist _ _ hsub2 hall
    have hl1 : ((s3.drop 4).take 2).length = 2 := by
      simp [List.length_take, List.length_drop, hlen8]
    have hl2 : ((s3.drop 6).take 2).length = 2 := by
      simp [List.length_take, List.length_drop, hlen8]
    refine ⟨s3.take 4, digitsToNat ((s3.drop 4).take 2), digitsToNat ((s3.drop 6).take 2),
      ?_, ?_, ?_, ?_, ?_⟩
    · simp [List.length_take, hlen8]
    · exact allDigits_sublist _ _ (List.take_sublist _ _) hall
    · exact digitsToNat_lt_100 _ (le_of_eq hl1) hd1
    · exact digitsToNat_lt_100 _ (le_of_eq hl2) hd2
    · rw [dateCore, if_pos h8, fmtDate,
        pad2_digitsToNat _ hl1 hd1, pad2_digitsToNat _ hl2 hd2]
  · rw [dateCore, if_neg h8]
    rcases hs : splitDash s3 with _ | ⟨y, _ | ⟨mo, _ | ⟨dd, _ | ⟨e, rest⟩⟩⟩⟩
    · exact Or.inr rfl
    · exact Or.inr rfl
    · exact Or.inr rfl
    · by_cases hcond : ((y.length == 4) && allDigits y &&
          (mo.length == 1 || mo.length == 2) && allDigits mo &&
          (dd.length == 1 || dd.length == 2) && allDigits dd) = true
      · left
        have hcond2 := hcond
        simp only [Bool.and_eq_true, Bool.or_eq_true, beq_iff_eq] at hcond2
        obtain ⟨⟨⟨⟨⟨hy4, hyd⟩, hmol⟩, hmod⟩, hddl⟩, hddd⟩ := hcond2
        have hmol2 : mo.length ≤ 2 := by rcases hmol with h | h <;> omega
        have hddl2 : dd.length ≤ 2 := by rcases hddl with h | h <;> omega
        refine ⟨y, digitsToNat mo, digitsToNat dd, hy4, hyd,
          digitsToNat_lt_100 _ hmol2 hmod, digitsToNat_lt_100 _ hddl2 hddd, ?_⟩
        show (if ((y.length == 4) && allDigits y &&
            (mo.length == 1 || mo.length == 2) && allDigits mo &&
            (dd.length == 1 || dd.length == 2) && allDigits dd) = true then
          y ++ '-' :: (pad2 (digitsToNat mo) ++ '-' :: pad2 (digitsToNat dd))
          else s3) = fmtDate y (digitsToNat mo) (digitsToNat dd)
        rw [if_pos hcond]
        rfl
      · right
        show (if ((y.length == 4) && allDigits y &&
            (mo.length == 1 || mo.length == 2) && allDigits mo &&
            (dd.length == 1 || dd.length == 2) && allDigits dd) = true then
          y ++ '-' :: (pad2 (digitsToNat mo) ++ '-' :: pad2 (digitsToNat dd))
          else s3) = s3
        rw [if_neg hcond]
    · exact Or.inr rfl

theorem dateOnly_fmtDate (a : PyStr) (m d : Nat) (ha : a.length = 4)
    (had : allDigits a = true) (hm : m < 100) (hd : d < 100) :
    dateOnly (fmtDate a m d) = fmtDate a m d := by
  have hedge := fmtDate_edgesOk a m d ha had hm hd
  have hne : ∀ c ∈ fmtDate a m d,
      c ≠ ' ' ∧ c ≠ 'T' ∧ c ≠ '年' ∧ c ≠ '月' ∧ c ≠ '日' ∧ c ≠ '/' ∧ c ≠ '.' := by
    intro c hc
    rcases fmtDate_chars a m d had hm hd c hc with h | rfl
    · have := isDig_ne c h
      exact ⟨this.2.1, this.2.2.1, this.2.2.2.1, this.2.2.2.2.1, this.2.2.2.2.2.1,
        this.2.2.2.2.2.2.1, this.2.2.2.2.2.2.2.1⟩
    · exact ⟨by decide, by decide, by decide, by decide, by decide, by decide, by decide⟩
  rw [dateOnly, pyStrip_eq_self _ hedge, isMissing_fmtDate a m d ha had hm hd,
    if_neg Bool.false_ne_true,
    splitFirstST_eq_self _ (fun c hc => ⟨(hne c hc).1, (hne c hc).2.1⟩),
    pyStrip_eq_self _ hedge,
    dateRepl_eq_self _ (fun c hc => (hne c hc).2.2),
    dateCore_fmtDate a m d ha had hm hd]

theorem dateOnly_fallback_fix (s3 : PyStr)
    (hchars : ∀ c ∈ s3,
      c ≠ ' ' ∧ c ≠ 'T' ∧ c ≠ '年' ∧ c ≠ '月' ∧ c ≠ '日' ∧ c ≠ '/' ∧ c ≠ '.')
    (hedge : edgesOk s3 = true)
    (hmiss : isMissing s3 = false)
    (hfix : dateCore s3 = s3) :
    dateOnly s3 = s3 := by
  rw [dateOnly, pyStrip_eq_self _ hedge, hmiss, if_neg Bool.false_ne_true,
    splitFirstST_eq_self _ (fun c hc => ⟨(hchars c hc).1, (hchars c hc).2.1⟩),
    pyStrip_eq_self _ hedge,
    dateRepl_eq_self _ (fun c hc => (hchars c hc).2.2),
    hfix]

-- Per-cell idempotence of the normalizer --------------------------------

theorem svalStr_text (s : PyStr) : svalStr (SVal.text s) = s := rfl

theorem svalText_text (s : PyStr) : svalText (SVal.text s) = s := rfl

theorem normCell_text_eq (v : SVal) : normCell ColKind.text v =
    SVal.text (if isMissing (dataNorm (svalStr v)) then ERROR_TEXT
               else dataNorm (svalStr v)) := rfl

theorem normCell_text_idem (v : SVal) :
    normCell ColKind.text (normCell ColKind.text v) = normCell ColKind.text v := by
  cases hm : isMissing (dataNorm (svalStr v)) with
  | true =>
      rw [normCell_text_eq v, hm, if_pos rfl]
      decide
  | false =>
      rw [normCell_text_eq v, hm, if_neg Bool.false_ne_true,
        normCell_text_eq (SVal.text (dataNorm (svalStr v)))]
      rw [svalStr_text]
      rw [dataNorm_idem, hm, if_neg Bool.false_ne_true]

theorem compFix_isClean (s : PyStr) (hbad : noBadChar s = true) :
    isCleanStr (compFix s) = true := by
  rw [isCleanStr, Bool.and_eq_true, Bool.and_eq_true]
  refine ⟨⟨?_, by rw [compFix]; exact squeezeSpaces_noDbl _⟩, ?_⟩
  · rw [noBadChar_iff] at hbad ⊢
    intro c hc
    rw [compFix] at hc
    exact hbad c (mem_dropChar ',' s c
      (mem_dropChar '.' _ c (mem_pyStrip _ c (mem_squeezeSpaces _ c hc))).1).1
  · rw [edgesOk_iff]
    constructor
    · intro c hc
      rw [compFix, squeezeSpaces_head?] at hc
      exact stripWith_head pyWs _ c hc
    · intro c hc
      rw [compFix, squeezeSpaces_getLast?] at hc
      exact stripWith_last pyWs _ c hc

theorem compFix_no_comma_dot (s : PyStr) : ',' ∉ compFix s ∧ '.' ∉ compFix s := by
  constructor <;> intro hm <;> rw [compFix] at hm
  · exact (mem_dropChar ',' s ','
      (mem_dropChar '.' _ ',' (mem_pyStrip _ ',' (mem_squeezeSpaces _ ',' hm))).1).2 rfl
  · exact (mem_dropChar '.' (dropChar ',' s) '.'
      (mem_pyStrip _ '.' (mem_squeezeSpaces _ '.' hm))).2 rfl

theorem compFix_eq_self (s : PyStr) (h : isCleanStr s = true)
    (hc1 : ',' ∉ s) (hc2 : '.' ∉ s) : compFix s = s := by
  rw [isCleanStr, Bool.and_eq_true, Bool.and_eq_true] at h
  rw [compFix, dropChar_eq_self ',' s hc1, dropChar_eq_self '.' s hc2,
    pyStrip_eq_self s h.2, squeezeSpaces_eq_self s h.1.2]

theorem normCell_comp_eq (v : SVal) : normCell ColKind.comp v =
    SVal.text (if isMissing (compFix (dataNorm (svalStr v))) then ERROR_TEXT
               else compFix (dataNorm (svalStr v))) := rfl

theorem normCell_comp_idem (v : SVal) :
    normCell ColKind.comp (normCell ColKind.comp v) = normCell ColKind.comp v := by
  cases hm : isMissing (compFix (dataNorm (svalStr v))) with
  | true =>
      rw [normCell_comp_eq v, hm, if_pos rfl]
      decide
  | false =>
      rw [normCell_comp_eq v, hm, if_neg Bool.false_ne_true,
        normCell_comp_eq (SVal.text (compFix (dataNorm (svalStr v))))]
      rw [svalStr_text]
      have hclean := compFix_isClean _ (dataNorm_noBadChar (svalStr v))
      rw [dataNorm_eq_self _ hclean,
        compFix_eq_self _ hclean (compFix_no_comma_dot _).1 (compFix_no_comma_dot _).2,
        hm, if_neg Bool.false_ne_true]

theorem yn01e_range (v : PyStr) :
    yn01e_to_int v = 1 ∨ yn01e_to_int v = 0 ∨ yn01e_to_int v = -1 := by
  rw [yn01e_to_int]
  split_ifs <;> simp

theorem normCell_bool_idem (v : SVal) :
    normCell ColKind.boolInt (normCell ColKind.boolInt v) = normCell ColKind.boolInt v := by
  have heq : normCell ColKind.boolInt v =
      SVal.int (yn01e_to_int (dataNorm (svalStr v))) := rfl
  rcases yn01e_range (dataNorm (svalStr v)) with h | h | h <;> rw [heq, h] <;> decide

theorem normCell_date_eq (v : SVal) : normCell ColKind.date v =
    SVal.text (if isMissing (dateOnly (dataNorm (svalStr v))) then ERROR_TEXT
               else dateOnly (dataNorm (svalStr v))) := rfl

theorem normCell_date_idem (v : SVal)
    (h : edgesOk (svalText (normCell ColKind.date v)) = true) :
    normCell ColKind.date (normCell ColKind.date v) = normCell ColKind.date v := by
  cases hm : isMissing (dateOnly (dataNorm (svalStr v))) with
  | true =>
      rw [normCell_date_eq v, hm, if_pos rfl]
      decide
  | false =>
      rw [normCell_date_eq v, hm, if_neg Bool.false_ne_true] at h ⊢
      rw [svalText_text] at h
      set w := dataNorm (svalStr v) with hw
      have hwclean : isCleanStr w = true := by rw [hw]; exact dataNorm_isClean _
      have hwbad : noBadChar w = true := by
        rw [isCleanStr, Bool.and_eq_true, Bool.and_eq_true] at hwclean
        exact hwclean.1.1
      cases hms : isMissing (pyStrip w) with
      | true =>
          have hu : dateOnly w = [] := by rw [dateOnly, hms, if_pos rfl]
          rw [hu] at hm
          exact absurd hm (by decide)
      | false =>
          have hu : dateOnly w =
              dateCore (dateRepl (pyStrip (splitFirstST (pyStrip w)))) := by
            rw [dateOnly, hms, if_neg Bool.false_ne_true]
          rcases dateCore_cases (dateRepl (pyStrip (splitFirstST (pyStrip w)))) with
            ⟨a, mm, dd, ha, had, hmm, hdd, heq⟩ | heq
          · have hufmt : dateOnly w = fmtDate a mm dd := by rw [hu, heq]
            rw [hufmt] at hm ⊢
            rw [normCell_date_eq (SVal.text (fmtDate a mm dd))]
            rw [svalStr_text]
            rw [dataNorm_eq_self _ (fmtDate_isClean a mm dd ha had hmm hdd),
              dateOnly_fmtDate a mm dd ha had hmm hdd, hm, if_neg Bool.false_ne_true]
          · have hus : dateOnly w = dateRepl (pyStrip (splitFirstST (pyStrip w))) := by
              rw [hu, heq]
            rw [hus] at h hm ⊢
            have hchars : ∀ c ∈ dateRepl (pyStrip (splitFirstST (pyStrip w))),
                c ≠ ' ' ∧ c ≠ 'T' ∧ c ≠ '年' ∧ c ≠ '月' ∧ c ≠ '日' ∧ c ≠ '/' ∧ c ≠ '.' :=
              fun c hc => (s3_chars (pyStrip w) c hc).2
            have hclean : isCleanStr (dateRepl (pyStrip (splitFirstST (pyStrip w)))) = true := by
              rw [isCleanStr, Bool.and_eq_true, Bool.and_eq_true]
              refine ⟨⟨?_, noDbl_of_no_space _ (fun hsp => ((hchars ' ' hsp).1) rfl)⟩, h⟩
              rw [noBadChar_iff]
              intro c hc
              rcases (s3_chars (pyStrip w) c hc).1 with rfl | hcw
              · exact ⟨by decide, by decide, by decide⟩
              · exact (noBadChar_iff w).mp hwbad c (mem_pyStrip w c hcw)
            rw [normCell_date_eq (SVal.text (dateRepl (pyStrip (splitFirstST (pyStrip w)))))]
            rw [svalStr_text]
            rw [dataNorm_eq_self _ hclean,
              dateOnly_fallback_fix _ hchars h hm heq, hm, if_neg Bool.false_ne_true]

-- Supporting lemmas for the claim theorems ------------------------------

theorem normalizeRow_idem (cs : List String) (vs : List SVal)
    (h : dateOutOk cs vs = true) :
    normalizeRow cs (normalizeRow cs vs) = normalizeRow cs vs := by
  induction cs generalizing vs with
  | nil => cases vs <;> rfl
  | cons c cs ih =>
      cases vs with
      | nil => rfl
      | cons v vs =>
          rw [dateOutOk, Bool.and_eq_true] at h
          simp only [normalizeRow]
          rw [ih vs h.2]
          congr 1
          cases hk : colKind c with
          | boolInt => exact normCell_bool_idem v
          | date =>
              have hd := h.1
              rw [hk] at hd
              exact normCell_date_idem v hd
          | comp => exact normCell_comp_idem v
          | text => exact normCell_text_idem v

theorem loadCsv_spec (readIdx : List Nat) (rows : List (List String)) :
    ∀ n : Nat,
    (loadCsv readIdx rows n).1.length = rows.length ∧
    (loadCsv readIdx rows n).2 = 0 ∧
    (loadCsv readIdx rows n).1.map Prod.fst = List.range' (n + 1) rows.length := by
  induction rows with
  | nil => exact fun n => ⟨rfl, rfl, rfl⟩
  | cons row rest ih =>
      intro n
      obtain ⟨h1, h2, h3⟩ := ih (n + 1)
      refine ⟨?_, ?_, ?_⟩
      · simp only [loadCsv, processRow?, List.length_cons, h1]
      · simp only [loadCsv, processRow?, h2]
      · simp only [loadCsv, processRow?, List.map_cons, h3, List.length_cons,
          List.range'_succ]

theorem mem_whereNe {α : Type} (col : α → Option String) (val : Option String)
    (rows : List α) (r : α) :
    r ∈ whereNe col val rows ↔ r ∈ rows ∧ whereNePred val (col r) = true := by
  rw [whereNe, List.mem_filter]

theorem lexLe_refl (a : DRow) : lexLe a a = true := by
  simp [lexLe]

theorem lexLe_trans (a b c : DRow) (h1 : lexLe a b = true) (h2 : lexLe b c = true) :
    lexLe a c = true := by
  simp only [lexLe, decide_eq_true_eq] at h1 h2 ⊢
  omega

theorem lexLe_total (a b : DRow) : lexLe a b = true ∨ lexLe b a = true := by
  simp only [lexLe, decide_eq_true_eq]
  omega

theorem lexLe_antisymm (a b : DRow) (h1 : lexLe a b = true) (h2 : lexLe b a = true) :
    a.rownum = b.rownum ∧ a.rid = b.rid := by
  simp only [lexLe, decide_eq_true_eq] at h1 h2
  omega

theorem mem_uniqueBy (rows : List DRow) (r : DRow) :
    r ∈ uniqueBy rows ↔ r ∈ rows ∧ ∀ q ∈ rows, q.key = r.key → lexLe r q = true := by
  rw [uniqueBy, List.mem_filter, List.all_eq_true]
  constructor
  · intro ⟨h1, h2⟩
    refine ⟨h1, fun q hq hk => ?_⟩
    have h3 := h2 q hq
    rw [Bool.or_eq_true] at h3
    rcases h3 with h3 | h3
    · rw [Bool.not_eq_true', beq_eq_false_iff_ne] at h3
      exact absurd hk h3
    · exact h3
  · intro ⟨h1, h2⟩
    refine ⟨h1, fun q hq => ?_⟩
    rw [Bool.or_eq_true]
    by_cases hk : q.key = r.key
    · exact Or.inr (h2 q hq hk)
    · left
      rw [Bool.not_eq_true', beq_eq_false_iff_ne]
      exact hk

theorem exists_lexLe_min (l : List DRow) (hne : l ≠ []) :
    ∃ m ∈ l, ∀ q ∈ l, lexLe m q = true := by
  induction l with
  | nil => exact absurd rfl hne
  | cons a t ih =>
      cases t with
      | nil =>
          refine ⟨a, List.mem_cons_self a [], fun q hq => ?_⟩
          rcases List.mem_cons.mp hq with rfl | hq
          · exact lexLe_refl q
          · exact absurd hq (List.not_mem_nil q)
      | cons b u =>
          obtain ⟨m, hm, hmin⟩ := ih (by simp)
          rcases lexLe_total a m with h | h
          · refine ⟨a, List.mem_cons_self a _, fun q hq => ?_⟩
            rcases List.mem_cons.mp hq with rfl | hq
            · exact lexLe_refl q
            · exact lexLe_trans a m q h (hmin q hq)
          · refine ⟨m, List.mem_cons_of_mem a hm, fun q hq => ?_⟩
            rcases List.mem_cons.mp hq with rfl | hq
            · exact h
            · exact hmin q hq

theorem uniqueBy_perm (rows rows2 : List DRow) (hp : rows.Perm rows2) :
    (uniqueBy rows).Perm (uniqueBy rows2) := by
  have hpred : ∀ r : DRow,
      (rows.all (fun q => !(q.key == r.key) || lexLe r q)) =
      (rows2.all (fun q => !(q.key == r.key) || lexLe r q)) := by
    intro r
    apply Bool.eq_iff_iff.mpr
    rw [List.all_eq_true, List.all_eq_true]
    exact ⟨fun h q hq => h q (hp.mem_iff.mpr hq), fun h q hq => h q (hp.mem_iff.mp hq)⟩
  rw [uniqueBy, uniqueBy]
  refine (hp.filter _).trans ?_
  have heq : rows2.filter (fun r => rows.all (fun q => !(q.key == r.key) || lexLe r q)) =
      rows2.filter (fun r => rows2.all (fun q => !(q.key == r.key) || lexLe r q)) := by
    apply List.filter_congr
    intro x _
    exact hpred x
  rw [heq]

theorem mem_addUniq_self (h : String) (l : List String) : h ∈ addUniq h l := by
  rw [addUniq]
  split
  · assumption
  · exact List.mem_append_right l (List.mem_cons_self h [])

theorem mem_addUniq_of_mem (x h : String) (l : List String) (hm : x ∈ l) :
    x ∈ addUniq h l := by
  rw [addUniq]
  split
  · exact hm
  · exact List.mem_append_left _ hm

theorem mem_rhFold_pres (der : List String) (hs : List String) (r : List String)
    (x : String) (hm : x ∈ r) :
    x ∈ hs.foldl (fun r h =>
      if h = "__rid" ∨ h = "__src_rownum" then r
      else if h ∈ der then r else addUniq h r) r := by
  induction hs generalizing r with
  | nil => exact hm
  | cons a t ih =>
      rw [List.foldl_cons]
      apply ih
      split
      · exact hm
      · split
        · exact hm
        · exact mem_addUniq_of_mem x a r hm

theorem mem_rhFold_adds (der : List String) (hs : List String) (r : List String)
    (h : String) (hm : h ∈ hs) (hni : ¬(h = "__rid" ∨ h = "__src_rownum"))
    (hnd : h ∉ der) :
    h ∈ hs.foldl (fun r x =>
      if x = "__rid" ∨ x = "__src_rownum" then r
      else if x ∈ der then r else addUniq x r) r := by
  induction hs generalizing r with
  | nil => exact absurd hm (List.not_mem_nil h)
  | cons a t ih =>
      rw [List.foldl_cons]
      rcases List.mem_cons.mp hm with rfl | hm
      · apply mem_rhFold_pres
        rw [if_neg hni, if_neg hnd]
        exact mem_addUniq_self h r
      · exact ih _ hm

theorem getD_map_nat (f : Nat → String) (l : List Nat) (k : Nat)
    (hk : k < l.length) (d : String) :
    (l.map f).getD k d = f (l.getD k 0) := by
  induction l generalizing k with
  | nil => simp at hk
  | cons a t ih =>
      cases k with
      | zero => rfl
      | succ k2 =>
          simp only [List.map_cons, List.getD_cons_succ]
          exact ih k2 (by simpa using hk)

theorem yes_no_disjoint : ∀ s ∈ noTokens, s ∉ yesTokens := by decide

theorem concatRest_all_empty (sep : PyStr) (vals : List (Option PyStr))
    (h : ∀ v ∈ vals, concatPart v = []) :
    concatRest sep vals =
      (List.replicate vals.length (if sep = [] then [] else sep)).flatten := by
  induction vals with
  | nil => rfl
  | cons v rest ih =>
      rw [concatRest, h v (List.mem_cons_self v rest),
        ih (fun x hx => h x (List.mem_cons_of_mem _ hx))]
      simp [List.replicate_succ]

-- ============================================================
-- Claim theorems
-- ============================================================

/-- Claim C1: for every file loaded by `TableSQL.from_csv`, the number
of stored rows plus the bad-row count equals the number of data lines
after the header, and the stored ordinals (`__src_rownum`) are exactly
the dense sequence `1..rows_loaded` in file order. -/
theorem c1_loader_conservation_and_dense_ordinals
    (readIdx : List Nat) (rows : List (List String)) :
    (loadCsv readIdx rows 0).1.length + (loadCsv readIdx rows 0).2 = rows.length ∧
    (loadCsv readIdx rows 0).1.map Prod.fst =
      List.range' 1 (loadCsv readIdx rows 0).1.length := by
  obtain ⟨h1, h2, h3⟩ := loadCsv_spec readIdx rows 0
  exact ⟨by simp [h1, h2], by rw [h3, h1]⟩

/-- Claim C2: the compiled not-equals filter (`where_ne`) returns
exactly the rows whose value in the column is non-null and different
from the comparison value; a null-valued row is never in a not-equals
result, for any comparison value. -/
theorem c2_where_ne_excludes_null {α : Type} (col : α → Option String)
    (v : String) (rows : List α) :
    (∀ r, r ∈ whereNe col (some v) rows ↔
      r ∈ rows ∧ ∃ s, col r = some s ∧ s ≠ v) ∧
    (∀ (val : Option String) (r : α), r ∈ rows → col r = none →
      r ∉ whereNe col val rows) := by
  constructor
  · intro r
    rw [mem_whereNe]
    constructor
    · intro ⟨h1, h2⟩
      refine ⟨h1, ?_⟩
      cases hc : col r with
      | none =>
          rw [hc] at h2
          simp only [whereNePred] at h2
          exact absurd h2 (by decide)
      | some s =>
          rw [hc] at h2
          simp only [whereNePred, Bool.not_eq_true', beq_eq_false_iff_ne] at h2
          exact ⟨s, rfl, h2⟩
    · intro ⟨h1, s, hc, hne⟩
      refine ⟨h1, ?_⟩
      rw [hc]
      simp only [whereNePred, Bool.not_eq_true', beq_eq_false_iff_ne]
      exact hne
  · intro val r _ hc hmem
    rw [mem_whereNe, hc] at hmem
    cases val with
    | none =>
        simp only [whereNePred] at hmem
        exact absurd hmem.2 (by decide)
    | some v2 =>
        simp only [whereNePred] at hmem
        exact absurd hmem.2 (by decide)

/-- Claim C2 witness: on rows `some "a", some "b", none` with value
`"b"`, the filter keeps exactly `some "a"` and never the null row. -/
theorem c2_where_ne_excludes_null_witness :
    ((none : Option String) ∉
      whereNe (fun x : Option String => x) (some "b") [some "a", some "b", none]) ∧
    whereNe (fun x : Option String => x) (some "b") [some "a", some "b", none] =
      [some "a"] :=
  ⟨(c2_where_ne_excludes_null (fun x => x) "b" [some "a", some "b", none]).2
      (some "b") none (by decide) rfl,
   by decide⟩

/-- Claim C3: `unique_by` keeps exactly one row per distinct key — the
row whose ordinal is least in the key's partition, ties broken by the
positional row identifier — and the kept set is invariant (as a
multiset) under permutations of the input row set. -/
theorem c3_unique_by_deterministic (rows : List DRow)
    (hinj : ∀ a ∈ rows, ∀ b ∈ rows, a.rid = b.rid → a = b) :
    (∀ k, (∃ r ∈ rows, r.key = k) →
      ∃ m, (m ∈ uniqueBy rows ∧ m.key = k ∧
          ∀ q ∈ rows, q.key = k → lexLe m q = true) ∧
        ∀ m2, m2 ∈ uniqueBy rows → m2.key = k → m2 = m) ∧
    (∀ rows2, rows.Perm rows2 → (uniqueBy rows).Perm (uniqueBy rows2)) := by
  constructor
  · intro k hk
    obtain ⟨r0, hr0, hk0⟩ := hk
    have hne : rows.filter (fun q => q.key == k) ≠ [] := by
      intro he
      have hmem : r0 ∈ rows.filter (fun q => q.key == k) := by
        rw [List.mem_filter]
        exact ⟨hr0, by simp [hk0]⟩
      rw [he] at hmem
      exact absurd hmem (List.not_mem_nil r0)
    obtain ⟨m, hm, hmin⟩ := exists_lexLe_min _ hne
    rw [List.mem_filter] at hm
    have hmk : m.key = k := by simpa using hm.2
    have hminr : ∀ q ∈ rows, q.key = k → lexLe m q = true := by
      intro q hq hqk
      exact hmin q (by rw [List.mem_filter]; exact ⟨hq, by simp [hqk]⟩)
    have hmem : m ∈ uniqueBy rows := by
      rw [mem_uniqueBy]
      exact ⟨hm.1, fun q hq hqk => hminr q hq (hqk.trans hmk)⟩
    refine ⟨m, ⟨hmem, hmk, hminr⟩, ?_⟩
    intro m2 hm2 hk2
    have hm2r := (mem_uniqueBy rows m2).mp hm2
    have h1 : lexLe m2 m = true := hm2r.2 m hm.1 (hmk.trans hk2.symm)
    have h2 : lexLe m m2 = true := hminr m2 hm2r.1 hk2
    obtain ⟨_, hrid⟩ := lexLe_antisymm m2 m h1 h2
    exact hinj m2 hm2r.1 m hm.1 hrid
  · exact fun rows2 hp => uniqueBy_perm rows rows2 hp

/-- Claim C3 witness: on rows with ordinals `(1,x),(2,y),(3,x)` the
dedup keeps ordinals 1 and 2 and discards ordinal 3, and the kept row
for key `x` is the unique ordinal-least one. -/
theorem c3_unique_by_deterministic_witness :
    (∀ a ∈ [DRow.mk 1 1 "x" [], DRow.mk 2 2 "y" [], DRow.mk 3 3 "x" []],
      ∀ b ∈ [DRow.mk 1 1 "x" [], DRow.mk 2 2 "y" [], DRow.mk 3 3 "x" []],
        a.rid = b.rid → a = b) ∧
    (∃ m, (m ∈ uniqueBy [DRow.mk 1 1 "x" [], DRow.mk 2 2 "y" [], DRow.mk 3 3 "x" []] ∧
        m.key = "x" ∧
        ∀ q ∈ [DRow.mk 1 1 "x" [], DRow.mk 2 2 "y" [], DRow.mk 3 3 "x" []],
          q.key = "x" → lexLe m q = true) ∧
      ∀ m2, m2 ∈ uniqueBy [DRow.mk 1 1 "x" [], DRow.mk 2 2 "y" [], DRow.mk 3 3 "x" []] →
        m2.key = "x" → m2 = m) ∧
    (uniqueBy [DRow.mk 1 1 "x" [], DRow.mk 2 2 "y" [], DRow.mk 3 3 "x" []]).map
      DRow.rownum = [1, 2] :=
  ⟨by decide,
   (c3_unique_by_deterministic
      [DRow.mk 1 1 "x" [], DRow.mk 2 2 "y" [], DRow.mk 3 3 "x" []] (by decide)).1
      "x" ⟨DRow.mk 1 1 "x" [], by decide, rfl⟩,
   by decide⟩

/-- Claim C4 counterexample: the empty (cleaned) value, which the claim
places in the "no" token set, is normalized to the sentinel -1, not 0:
`yn01e_to_int` checks the missing-token set — which contains the empty
string — only after the yes/no sets, and the no set has no empty token. -/
theorem c4_empty_maps_to_sentinel_counterexample :
    yn01e_to_int ([] : PyStr) = -1 ∧ yn01e_to_int ([] : PyStr) ≠ 0 := by
  exact ⟨by decide, by decide⟩

/-- Claim C4 (amended): after cleanup (strip and lowercase), a value in
the yes token set `{1,yes,y,true,t,on}` maps to 1, a value in the no
token set `{0,no,n,false,f,off}` maps to 0, and any other value —
including the empty string and the error/unknown/na/null/none/? tokens —
maps to the sentinel -1. -/
theorem c4_yn01e_token_mapping (v : PyStr) :
    (pyLower (pyStrip v) ∈ yesTokens → yn01e_to_int v = 1) ∧
    (pyLower (pyStrip v) ∈ noTokens → yn01e_to_int v = 0) ∧
    (pyLower (pyStrip v) ∉ yesTokens → pyLower (pyStrip v) ∉ noTokens →
      yn01e_to_int v = -1) := by
  refine ⟨fun h => ?_, fun h => ?_, fun h1 h2 => ?_⟩
  · simp only [yn01e_to_int]
    rw [if_pos h]
  · simp only [yn01e_to_int]
    rw [if_neg (yes_no_disjoint _ h), if_pos h]
  · simp only [yn01e_to_int]
    rw [if_neg h1, if_neg h2]
    split <;> rfl

/-- Claim C4 witness: `"Yes "` maps to 1, `"off"` to 0, `"?"` to -1. -/
theorem c4_yn01e_token_mapping_witness :
    yn01e_to_int ("Yes ".toList) = 1 ∧ yn01e_to_int ("off".toList) = 0 ∧
    yn01e_to_int ("?".toList) = -1 :=
  ⟨(c4_yn01e_token_mapping _).1 (by decide),
   (c4_yn01e_token_mapping _).2.1 (by decide),
   (c4_yn01e_token_mapping _).2.2 (by decide) (by decide)⟩

/-- Claim C5: for every pipeline compiled with an explicit output-column
list, every final output column is among the base query's selected
columns or among the derived (concatenate) columns: the build-time
validation invariant of `build_pipeline_sql` holds for every pipeline
and explicit output list, so no output column can be silently dropped at
execution time. -/
theorem c5_output_columns_traceable (steps : List Step) (returnHeads : List String)
    (h : String) (hmem : h ∈ finalColsOf returnHeads) :
    h ∈ baseColsOf steps returnHeads ∨ h ∈ (needColsSome steps returnHeads).2 := by
  by_cases hder : h ∈ (needColsSome steps returnHeads).2
  · exact Or.inr hder
  · left
    rw [baseColsOf, List.mem_filter]
    refine ⟨?_, by simpa using hder⟩
    show h ∈ addUniq "__src_rownum"
      (returnHeads.foldl (fun r x =>
        if x = "__rid" ∨ x = "__src_rownum" then r
        else if x ∈ (steps.foldl stepCols ([], [])).2 then r else addUniq x r)
        (steps.foldl stepCols ([], [])).1)
    rw [finalColsOf] at hmem
    rcases List.mem_cons.mp hmem with rfl | hmem2
    · exact mem_addUniq_self _ _
    · rw [List.mem_filter] at hmem2
      obtain ⟨hrh, hcond⟩ := hmem2
      have hni : ¬(h = "__rid" ∨ h = "__src_rownum") := by
        simp only [Bool.and_eq_true, Bool.not_eq_true', beq_eq_false_iff_ne] at hcond
        rintro (rfl | rfl)
        · exact hcond.1 rfl
        · exact hcond.2 rfl
      apply mem_addUniq_of_mem
      exact mem_rhFold_adds _ returnHeads _ h hrh hni hder

/-- Claim C5 witness: with a concatenate step deriving `C` from `A` and
`B` and output list `["C", "A"]`, both output columns are traceable. -/
theorem c5_output_columns_traceable_witness :
    ("C" ∈ finalColsOf ["C", "A"]) ∧
    ("C" ∈ baseColsOf [Step.concat ["A", "B"] "C" "_"] ["C", "A"] ∨
      "C" ∈ (needColsSome [Step.concat ["A", "B"] "C" "_"] ["C", "A"]).2) ∧
    ("A" ∈ baseColsOf [Step.concat ["A", "B"] "C" "_"] ["C", "A"] ∨
      "A" ∈ (needColsSome [Step.concat ["A", "B"] "C" "_"] ["C", "A"]).2) :=
  ⟨by decide,
   c5_output_columns_traceable [Step.concat ["A", "B"] "C" "_"] ["C", "A"] "C" (by decide),
   c5_output_columns_traceable [Step.concat ["A", "B"] "C" "_"] ["C", "A"] "A" (by decide)⟩

/-- Claim C6 counterexample: normalizing an already-normalized table is
not always a no-op.  For the date column `Reflected_Date` holding
`a<VT>日` (a vertical tab before a trailing day marker), the first pass
stores `a<VT>` — `_date_only` removes the day marker after its strip has
already run — and the second pass's cleanup strips the now-trailing
vertical tab, storing `a`: the row count is unchanged but a value is. -/
theorem c6_normalize_roundtrip_counterexample :
    normalizeTable (normalizeTable
      ⟨["Reflected_Date"], [(1, [SVal.text ['a', '\x0b', '日']])]⟩) ≠
    normalizeTable ⟨["Reflected_Date"], [(1, [SVal.text ['a', '\x0b', '日']])]⟩ := by
  decide

/-- Claim C6 (amended): applying `Normalizer.apply` to its own output is
a no-op — same row count, same values in every column, with text "-1"
staying "-1" — provided no date-column cell normalizes to a string with
whitespace at either end (only an unusual whitespace character exposed
by `_date_only`'s punctuation removal can put one there); all non-date
columns are unconditionally idempotent. -/
theorem c6_normalize_idempotent (t : NTable)
    (h : ∀ r ∈ t.rows, dateOutOk t.cols r.2 = true) :
    normalizeTable (normalizeTable t) = normalizeTable t := by
  rw [normalizeTable, normalizeTable]
  congr 1
  rw [List.map_map]
  apply List.map_congr_left
  intro r hr
  simp only [Function.comp]
  congr 1
  exact normalizeRow_idem t.cols r.2 (h r hr)

/-- Claim C6 witness: a table with a flag column, a date column and a
text column normalizes to a fixed point of the normalizer. -/
theorem c6_normalize_idempotent_witness :
    (∀ r ∈ (NTable.mk ["3G", "Reflected_Date", "Other"]
        [(1, [SVal.text "yes".toList, SVal.text "2020/1/2".toList,
              SVal.text "  A  B ".toList])]).rows,
      dateOutOk ["3G", "Reflected_Date", "Other"] r.2 = true) ∧
    normalizeTable (normalizeTable (NTable.mk ["3G", "Reflected_Date", "Other"]
        [(1, [SVal.text "yes".toList, SVal.text "2020/1/2".toList,
              SVal.text "  A  B ".toList])])) =
      normalizeTable (NTable.mk ["3G", "Reflected_Date", "Other"]
        [(1, [SVal.text "yes".toList, SVal.text "2020/1/2".toList,
              SVal.text "  A  B ".toList])]) :=
  ⟨by decide, c6_normalize_idempotent _ (by decide)⟩

/-- Claim C7: deduplicate-by on a table that is already deduplicated by
that key (at most one row per distinct key value) is a no-op: the same
rows, in the same order, come back. -/
theorem c7_unique_by_idempotent (rows : List DRow)
    (h : ∀ a ∈ rows, ∀ b ∈ rows, a.key = b.key → a = b) :
    uniqueBy rows = rows := by
  rw [uniqueBy, List.filter_eq_self]
  intro r hr
  rw [List.all_eq_true]
  intro q hq
  rw [Bool.or_eq_true]
  by_cases hk : q.key = r.key
  · obtain rfl := h q hq r hr hk
    exact Or.inr (lexLe_refl q)
  · left
    rw [Bool.not_eq_true', beq_eq_false_iff_ne]
    exact hk

/-- Claim C7 witness: a two-row table with distinct keys is unchanged. -/
theorem c7_unique_by_idempotent_witness :
    (∀ a ∈ [DRow.mk 1 1 "x" ["p"], DRow.mk 2 2 "y" ["q"]],
      ∀ b ∈ [DRow.mk 1 1 "x" ["p"], DRow.mk 2 2 "y" ["q"]], a.key = b.key → a = b) ∧
    uniqueBy [DRow.mk 1 1 "x" ["p"], DRow.mk 2 2 "y" ["q"]] =
      [DRow.mk 1 1 "x" ["p"], DRow.mk 2 2 "y" ["q"]] :=
  ⟨by decide, c7_unique_by_idempotent _ (by decide)⟩

/-- Claim C8: the handle returned by `apply_plan` shares the source's
store connection without owning it — closing it leaves every connection
open — while the handle `from_csv` opened has `owns_conn=True` and its
`close` closes the connection; any handle with `owns_conn=False` leaves
the connection state untouched. -/
theorem c8_apply_plan_shares_connection :
    (∀ (t : MTable) (out : String) (s : Nat → Bool),
      (applyPlanTable t out).connId = t.connId ∧
      (applyPlanTable t out).owns_conn = false ∧
      closeTable (applyPlanTable t out) s = s) ∧
    (∀ (c : Nat) (n : String) (s : Nat → Bool),
      (fromCsvTable c n).owns_conn = true ∧
      closeTable (fromCsvTable c n) s c = false) ∧
    (∀ (t : MTable) (s : Nat → Bool), t.owns_conn = false → closeTable t s = s) := by
  refine ⟨fun t out s => ⟨rfl, rfl, rfl⟩, fun c n s => ⟨rfl, ?_⟩, fun t s h => ?_⟩
  · simp [closeTable, fromCsvTable]
  · rw [closeTable, h]
    simp

/-- Claim C8 witness: closing the non-owning result of `apply_plan` on
the table `from_csv` opened leaves the connection-state map unchanged. -/
theorem c8_apply_plan_shares_connection_witness :
    closeTable (MTable.mk 0 "t" false) (fun _ => true) = (fun _ => true) ∧
    closeTable (applyPlanTable (fromCsvTable 0 "t_raw") "t_out") (fun _ => true) =
      (fun _ => true) :=
  ⟨c8_apply_plan_shares_connection.2.2 (MTable.mk 0 "t" false) (fun _ => true) rfl,
   (c8_apply_plan_shares_connection.1 (fromCsvTable 0 "t_raw") "t_out"
      (fun _ => true)).2.2⟩

/-- Claim C9: a data row with fewer fields than the requested columns is
stored with the empty string for each missing trailing field; the
per-row computation cannot fail, the row is not counted bad, and the
load continues over the remaining rows. -/
theorem c9_short_rows_padded (readIdx : List Nat) (row : List String)
    (rest : List (List String)) (n : Nat) :
    processRow? readIdx row = some (processRow readIdx row) ∧
    (∀ k, k < readIdx.length → row.length ≤ readIdx.getD k 0 →
      (processRow readIdx row).getD k "nonempty" = "") ∧
    loadCsv readIdx (row :: rest) n =
      ((n + 1, processRow readIdx row) :: (loadCsv readIdx rest (n + 1)).1,
       (loadCsv readIdx rest (n + 1)).2) := by
  refine ⟨rfl, ?_, rfl⟩
  intro k hk hlen
  rw [processRow, getD_map_nat _ readIdx k hk, if_neg (by omega)]

/-- Claim C9 witness: a one-field row loaded against three requested
columns stores the field plus two empty strings with ordinal 1 and a
bad-row count of 0. -/
theorem c9_short_rows_padded_witness :
    (loadCsv [0, 1, 2] [["a"]] 0).1 = [(1, ["a", "", ""])] ∧
    (loadCsv [0, 1, 2] [["a"]] 0).2 = 0 ∧
    (processRow [0, 1, 2] ["a"]).getD 2 "nonempty" = "" :=
  ⟨by decide, by decide,
   (c9_short_rows_padded [0, 1, 2] ["a"] [] 0).2.1 2 (by decide) (by decide)⟩

/-- Claim C10 counterexample: the store's `TRIM` strips only space
characters, so an input value ending in a tab keeps that trailing
whitespace in the derived column. -/
theorem c10_concat_whitespace_counterexample :
    concatExpr "_".toList [some ['a', '\t']] = ['a', '\t'] ∧
    (concatExpr "_".toList [some ['a', '\t']]).getLast? = some '\t' ∧
    pyWs '\t' = true :=
  ⟨by decide, by decide, by decide⟩

/-- Claim C10 (amended): each concatenate input is coerced to text — a
NULL becomes the empty string — and stripped of leading and trailing
space characters (the store's `TRIM` handles only U+0020, not all
whitespace) before joining; a trimmed part never starts or ends with a
space, and when every input trims to empty the derived value consists of
the separators alone. -/
theorem c10_concat_trims_spaces (sep : PyStr) (vals : List (Option PyStr)) :
    (∀ (x : Option PyStr) (c : Char),
      ((concatPart x).head? = some c → c ≠ ' ') ∧
      ((concatPart x).getLast? = some c → c ≠ ' ')) ∧
    concatPart (none : Option PyStr) = [] ∧
    (vals ≠ [] → (∀ v ∈ vals, concatPart v = []) →
      concatExpr sep vals =
        (List.replicate (vals.length - 1) (if sep = [] then [] else sep)).flatten) := by
  refine ⟨fun x c => ⟨fun hh => ?_, fun hl => ?_⟩, rfl, fun hne hall => ?_⟩
  · have := stripWith_head (fun c => c == ' ') (x.getD []) c hh
    simpa using this
  · have := stripWith_last (fun c => c == ' ') (x.getD []) c hl
    simpa using this
  · cases vals with
    | nil => exact absurd rfl hne
    | cons v rest =>
        rw [concatExpr, hall v (List.mem_cons_self v rest),
          concatRest_all_empty sep rest (fun x hx => hall x (List.mem_cons_of_mem _ hx))]
        simp

/-- Claim C10 witness: two inputs that trim to empty (a space and a
NULL) joined with `_` produce exactly the separator. -/
theorem c10_concat_trims_spaces_witness :
    ([some (" ".toList : PyStr), none] ≠ []) ∧
    (∀ v ∈ [some (" ".toList : PyStr), none], concatPart v = []) ∧
    concatExpr "_".toList [some " ".toList, none] =
      (List.replicate ([some (" ".toList : PyStr), none].length - 1)
        (if ("_".toList : PyStr) = [] then [] else "_".toList)).flatten :=
  ⟨by decide, by decide,
   (c10_concat_trims_spaces "_".toList [some " ".toList, none]).2.2
      (by decide) (by decide)⟩
